import Mathlib

/-!
Shallow embedding of the graph-search core of the motion_primitive_library
repository (src/include/mpl_planner/common/graph_search.h): the A* and
Lifelong Planning A* engines of `MPL::GraphSearch`, together with the parts
of the persistent `StateSpace` they use.  `decimal_t` (IEEE double with +∞)
is modelled by rationals extended with an infinity point; the indexed
priority queue (boost d-ary heap with stable handles) is modelled by a
sorted association list with deterministic tie-breaking, as the spec allows.
The file `state_space.h` is not part of the sources, so `calculateKey`,
`updateNode` and the `State` field defaults are modelled from the spec
(marked below); everything else is translated from `graph_search.h`.
-/

namespace MPL

/-- `decimal_t` values as used by the search: a finite rational or +∞
(`std::numeric_limits<decimal_t>::infinity()`). -/
inductive D where
  | fin (q : ℚ)
  | inf
deriving DecidableEq

namespace D

/-- Addition; +∞ absorbs (IEEE semantics for the nonnegative values used). -/
def add : D → D → D
  | fin a, fin b => fin (a + b)
  | _, _ => inf

/-- Strict comparison `<` on `decimal_t`. -/
def ltb : D → D → Bool
  | fin a, fin b => decide (a < b)
  | fin _, inf => true
  | _, _ => false

/-- Comparison `<=` on `decimal_t`. -/
def leb : D → D → Bool
  | fin a, fin b => decide (a ≤ b)
  | _, inf => true
  | inf, fin _ => false

/-- `std::isinf`. -/
def isInf : D → Bool
  | fin _ => false
  | inf => true

/-- `std::min` (returns the first argument on ties). -/
def dmin (a b : D) : D := if ltb b a then b else a

theorem leb_refl (a : D) : leb a a = true := by
  cases a <;> simp [leb]

theorem leb_trans {a b c : D} (h₁ : leb a b = true) (h₂ : leb b c = true) :
    leb a c = true := by
  cases a <;> cases b <;> cases c <;> simp_all [leb]
  exact le_trans h₁ h₂

end D

/-- `MPL::Key`: opaque hashable state identifier, modelled as a natural. -/
abbrev Key := Nat

/-- The continuous state attached to a key.  The core only reads its time
component `t`; `id` stands for the rest of the tuple. -/
structure Coord where
  id : ℕ
  t : ℚ
deriving DecidableEq

/-- A motion primitive as produced by `env_base::forward_action`: the core
treats it as opaque, so we record the arguments it was built from. -/
structure Prim where
  start : Coord
  action_id : ℕ
deriving DecidableEq

/-- The `env_base` interface consumed by the search: goal test, heuristic,
successor generation (four parallel arrays, modelled as one list of tuples
kept in lockstep), and primitive reconstruction. -/
structure Env where
  is_goal : Coord → Bool
  get_heur : Coord → ℚ
  get_succ : Coord → List (Coord × Key × D × ℕ)
  forward_action : Coord → ℕ → Prim

/-- `MPL::State<Coord>`: the per-state search record.  Field defaults are
modelled from the spec: `g` and `rhs` start at +∞, `h` is computed at
creation, the predecessor and successor edge arrays start empty, the
iteration flags start false.  The three parallel predecessor vectors
(`pred_hashkey`, `pred_action_cost`, `pred_action_id`) are always pushed in
lockstep, so they are modelled as one list of triples; likewise the four
successor vectors. -/
structure State where
  hashkey : Key
  coord : Coord
  g : D := D.inf
  rhs : D := D.inf
  h : ℚ := 0
  iterationopened : Bool := false
  iterationclosed : Bool := false
  pred : List (Key × D × ℕ) := []
  succ : List (Coord × Key × D × ℕ) := []
deriving DecidableEq

/-- The priority queue `pq_`: a list of (f-value, key) kept sorted by
f-value, ties resolved first-in-first-out.  Stable handles are realised by
storing the node's key; a queued node has at most one live handle. -/
abbrev PQ := List (D × Key)

/-- Push an entry, keeping the list sorted (new entries go after equal
priorities: a deterministic tie-break, as the spec requires). -/
def pqPush (x : D × Key) : PQ → PQ
  | [] => [x]
  | y :: ys => if D.ltb x.1 y.1 then x :: y :: ys else y :: pqPush x ys

/-- Remove the (unique live) entry carrying key `k`, if present. -/
def pqErase (k : Key) : PQ → PQ
  | [] => []
  | y :: ys => if y.2 = k then ys else y :: pqErase k ys

/-- `(*heapkey).first = fval; pq_.increase(heapkey)`: reposition the entry
of `k` under its new priority. -/
def pqUpdate (k : Key) (fval : D) (pq : PQ) : PQ :=
  pqPush (fval, k) (pqErase k pq)

/-- `MPL::StateSpace<Dim, Coord>`: hash map of states, priority queue, and
the search parameters the two algorithms read. -/
structure StateSpace where
  hm : Key → Option State
  pq : PQ
  eps : ℚ
  dt : ℚ
  max_t : D := D.inf
  best_child : List Key := []
  expand_iteration : ℕ := 0

/-- Store a state under its key. -/
def StateSpace.put (ss : StateSpace) (s : State) : StateSpace :=
  { ss with hm := fun k => if k = s.hashkey then some s else ss.hm k }

/-- Read a state, with an inert default for keys never inserted (all live
lookups in the algorithms hit present keys). -/
def StateSpace.getS (ss : StateSpace) (k : Key) : State :=
  (ss.hm k).getD { hashkey := k, coord := { id := 0, t := 0 } }

/-- The g-value recorded for a key; +∞ when the node does not exist yet
(matching the `g` default of a fresh `State`). -/
def StateSpace.gOf (ss : StateSpace) (k : Key) : D :=
  match ss.hm k with
  | some s => s.g
  | none => D.inf

/-- Modelled from the spec: `StateSpace::calculateKey` is missing from the
sources (`state_space.h`); the spec defines the LPA* priority as
`min(g, rhs) + eps * h` when projected onto the scalar the queue compares. -/
def calculateKey (eps : ℚ) (s : State) : D :=
  D.add (D.dmin s.g s.rhs) (D.fin (eps * s.h))

/-- Node creation as done at every creation site of `graph_search.h`
(`succNode_ptr->h = ss_ptr->eps_ == 0 ? 0 : ENV->get_heur(...)`). -/
def newState (env : Env) (eps : ℚ) (k : Key) (c : Coord) : State :=
  { hashkey := k, coord := c, h := if eps = 0 then 0 else env.get_heur c }

/-- Modelled from the spec: the node part of `StateSpace::updateNode`
(missing from the sources, `state_space.h`): for a non-start node recompute
`rhs` as the minimum of `p.g + cost` over recorded predecessors (+∞ edges
contribute nothing); mark opened and not closed. -/
def updateNodeState (ss : StateSpace) (start_key k : Key) : State :=
  let s := ss.getS k
  { s with
    rhs := if k = start_key then s.rhs else
      s.pred.foldl (fun acc pe => D.dmin acc (D.add (ss.gOf pe.1) pe.2.1))
        D.inf,
    iterationopened := true, iterationclosed := false }

/-- Modelled from the spec: `StateSpace::updateNode` is missing from the
sources (`state_space.h`).  Per the spec: recompute the node via
`updateNodeState`; drop any live queue entry; re-insert with the current
priority iff `g ≠ rhs` and `coord.t ≤ max_t`. -/
def updateNode (ss : StateSpace) (start_key : Key) (k : Key) : StateSpace :=
  let s' := updateNodeState ss start_key k
  let pq' := pqErase k ss.pq
  let pq'' := if (decide (s'.g = s'.rhs) : Bool)
    then pq'
    else if D.leb (D.fin s'.coord.t) ss.max_t
      then pqPush (calculateKey ss.eps s', k) pq'
      else pq'
  { ss.put s' with pq := pq'' }

/-! ## Trace-back (`GraphSearch::recoverTraj`) -/

/-- One candidate of the predecessor-selection loop of `recoverTraj`:
`acc = (min_id, min_rhs, min_g)` scanned against predecessor `i` with key
`pk` and action cost `c`.  Mirrors the two branches of the C++ loop:
a strictly smaller `g(p) + cost` wins outright; a finite-cost tie wins iff
its `g(p)` is strictly larger than the current `min_g`. -/
def selectStep (ss : StateSpace) (acc : Option ℕ × D × D)
    (ie : ℕ × Key × D × ℕ) : Option ℕ × D × D :=
  let i := ie.1
  let pk := ie.2.1
  let c := ie.2.2.1
  let v := D.add (ss.gOf pk) c
  let mid := acc.1
  let mrhs := acc.2.1
  let mg := acc.2.2
  if D.ltb v mrhs then (some i, v, ss.gOf pk)
  else if !(D.isInf c) && decide (mrhs = v) then
    if D.ltb mg (ss.gOf pk) then (some i, mrhs, ss.gOf pk) else (mid, mrhs, mg)
  else (mid, mrhs, mg)

/-- The full selection scan over a predecessor list, starting from
`min_id = -1, min_rhs = +∞, min_g = +∞` (a `-1` id is `none` here). -/
def selectPred (ss : StateSpace) (preds : List (Key × D × ℕ)) :
    Option ℕ × D × D :=
  preds.enum.foldl (selectStep ss) (none, D.inf, D.inf)

/-- The trace-back loop: walk predecessor edges from `curk` toward the
start, accumulating primitives (`prs`) and visited nodes (`bc`) in the
goal-to-start push order of the C++ loop.  The boolean records whether the
walk finished on its own (the C++ loop has no fuel; `false` marks fuel
exhaustion, which no terminating execution hits). -/
def recoverTrajGo (env : Env) (start_key : Key) (ss : StateSpace) :
    ℕ → Key → List Prim → List Key → List Prim × List Key × Bool
  | 0, _, prs, bc => (prs, bc, false)
  | fuel + 1, curk, prs, bc =>
    let cur := ss.getS curk
    if cur.pred.isEmpty then (prs, bc, true)
    else
      let bc := bc ++ [curk]
      match (selectPred ss cur.pred).1 with
      | none => (prs, bc, true)
      | some i =>
        let pe := cur.pred.getD i (0, D.inf, 0)
        let parent := ss.getS pe.1
        let prs := prs ++ [env.forward_action parent.coord pe.2.2]
        if pe.1 = start_key then (prs, bc ++ [pe.1], true)
        else recoverTrajGo env start_key ss fuel pe.1 prs bc

/-- `GraphSearch::recoverTraj`: clear `best_child_`, walk back from the
terminal node, then reverse both the primitive list and `best_child_` so
they read in start-to-goal order. -/
def recoverTraj (env : Env) (start_key : Key) (ss : StateSpace) (curk : Key)
    (fuel : ℕ) : List Prim × StateSpace :=
  let r := recoverTrajGo env start_key ss fuel curk [] []
  (r.1.reverse, { ss with best_child := r.2.1.reverse })

/-! ## A* (`GraphSearch::Astar`) -/

/-- How a search invocation ended. -/
inductive OutKind where
  /-- `is_goal(start_coord)` held on entry. -/
  | alreadyAtGoal
  /-- A* broke out of the loop because the popped node satisfied `is_goal`. -/
  | goalReached (k : Key)
  /-- A* broke out because the popped node reached the time horizon. -/
  | horizonReached (k : Key)
  /-- `max_expand` expansions were performed without terminating. -/
  | capFail
  /-- The queue ran empty at the end of an iteration. -/
  | queueEmptyFail
  /-- LPA* loop condition became false: normal exit through the goal node. -/
  | loopExit
  /-- An unguarded `top()`/`pop()` executed on an empty queue (C++ UB). -/
  | topOnEmpty
  /-- Fuel ran out (the C++ loop would still be running). -/
  | fuelOut
deriving DecidableEq

/-- Result of the embedded `Astar`: the returned bool, the output-parameter
trajectory (`none` when the C++ code returns without assigning it), the
number of expansions performed, the kind of exit, and the state space. -/
structure AstarRes where
  ok : Bool
  traj : Option (List Prim)
  expansions : ℕ
  outcome : OutKind
  ss : StateSpace

/-- `StatePtr<Coord> &succNode_ptr = ss_ptr->hm_[key]; if (!succNode_ptr)
succNode_ptr = make_shared(...)`: fetch the child node, creating it (with
the `eps_ == 0` heuristic sentinel) when absent. -/
def getOrCreate (env : Env) (ss : StateSpace) (k : Key) (c : Coord) :
    State :=
  match ss.hm k with
  | some v => v
  | none => newState env ss.eps k c

/-- Successor processing of one `get_succ` entry inside the A* loop:
skip +∞ costs; get-or-create the child (computing `h` per the `eps_ == 0`
sentinel); append the predecessor triple unconditionally; on a strictly
better tentative g-value update `g` and the queue (in-place key update when
open and not closed, fresh push otherwise). -/
def astarProcSucc (env : Env) (ukey : Key) (ss : StateSpace)
    (e : Coord × Key × D × ℕ) : StateSpace :=
  let c := e.1
  let k := e.2.1
  let cost := e.2.2.1
  let act := e.2.2.2
  if D.isInf cost then ss
  else
    let v := getOrCreate env ss k c
    let v := { v with pred := v.pred ++ [(ukey, cost, act)] }
    let ss1 := ss.put v
    let tent := D.add ((ss1.getS ukey).g) cost
    if D.ltb tent v.g then
      let v' := { v with g := tent }
      let fval := D.add tent (D.fin (ss1.eps * v'.h))
      if v'.iterationopened && !v'.iterationclosed then
        { ss1.put v' with pq := pqUpdate k fval ss1.pq }
      else
        { ss1.put { v' with iterationopened := true } with
          pq := pqPush (fval, k) ss1.pq }
    else ss1

/-- The post-break tail of `Astar`: record `expand_iteration_`, recover the
trajectory from the terminal node, return `true`. -/
def astarFinish (env : Env) (start_key : Key) (tb_fuel : ℕ) (count : ℕ)
    (ss : StateSpace) (ukey : Key) (kind : OutKind) : AstarRes :=
  let ss := { ss with expand_iteration := count }
  let r := recoverTraj env start_key ss ukey tb_fuel
  { ok := true, traj := some r.1, expansions := count, outcome := kind,
    ss := r.2 }

/-- The pop step shared by both loops: close the node at the head of the
queue (`currNode_ptr->iterationclosed = true`) and drop the head entry. -/
def popClose (ukey : Key) (rest : PQ) (ss : StateSpace) : StateSpace :=
  { ss.put { ss.getS ukey with iterationclosed := true } with pq := rest }

/-- Pop-close plus the whole successor loop of one A* iteration. -/
def astarExpand (env : Env) (ukey : Key) (rest : PQ) (ss : StateSpace) :
    StateSpace :=
  (env.get_succ (ss.getS ukey).coord).foldl (astarProcSucc env ukey)
    (popClose ukey rest ss)

/-- The `while (true)` loop of `Astar`, one constructor step per iteration:
pop the minimum, close it, process successors, then the four termination
checks in source order (goal, time horizon, expansion cap, empty queue). -/
def astarGo (env : Env) (start_key : Key) (max_expand : Int) (max_t : ℚ)
    (tb_fuel : ℕ) : ℕ → ℕ → StateSpace → AstarRes
  | 0, count, ss =>
    { ok := false, traj := none, expansions := count, outcome := .fuelOut,
      ss := ss }
  | fuel + 1, count, ss =>
    match ss.pq with
    | [] =>
      { ok := false, traj := none, expansions := count,
        outcome := .topOnEmpty, ss := ss }
    | (_, ukey) :: rest =>
      let count := count + 1
      let u := ss.getS ukey
      let ss := astarExpand env ukey rest ss
      if env.is_goal u.coord then
        astarFinish env start_key tb_fuel count ss ukey (.goalReached ukey)
      else if decide (0 < max_t) && decide (max_t ≤ u.coord.t) &&
          !(D.isInf (ss.getS ukey).g) then
        astarFinish env start_key tb_fuel count ss ukey (.horizonReached ukey)
      else if decide (0 < max_expand) && decide (max_expand ≤ (count : Int))
      then
        { ok := false, traj := none, expansions := count, outcome := .capFail,
          ss := ss }
      else if ss.pq.isEmpty then
        { ok := false, traj := none, expansions := count,
          outcome := .queueEmptyFail, ss := ss }
      else astarGo env start_key max_expand max_t tb_fuel fuel count ss

/-- `GraphSearch::Astar`.  Note the entry check: when the start already
satisfies `is_goal` the C++ function executes `return 0;`, i.e. it returns
the bool `false` and never assigns the output trajectory. -/
def Astar (env : Env) (start_coord : Coord) (start_key : Key)
    (ss : StateSpace) (max_expand : Int) (max_t : ℚ) (fuel tb_fuel : ℕ) :
    AstarRes :=
  if env.is_goal start_coord then
    { ok := false, traj := none, expansions := 0, outcome := .alreadyAtGoal,
      ss := ss }
  else
    let ss :=
      if ss.pq.isEmpty then
        let s := { newState env ss.eps start_key start_coord with
                   g := D.fin 0, iterationopened := true }
        { ss.put s with
          pq := pqPush (D.add s.g (D.fin (ss.eps * s.h)), start_key) ss.pq }
      else ss
    astarGo env start_key max_expand max_t tb_fuel fuel 0 ss

/-! ## LPA* (`GraphSearch::LPAstar`) -/

/-- Result of the embedded `LPAstar`: the returned `decimal_t` (the goal
g-value, +∞ on failure), the output trajectory (`none` when the C++ code
returns without assigning it), expansions, exit kind, state space, and the
candidate goal node. -/
structure LpaRes where
  ret : D
  traj : Option (List Prim)
  expansions : ℕ
  outcome : OutKind
  ss : StateSpace
  goal : Option Key

/-- g-value of the tracked goal node (`none` is the freshly constructed
sentinel `State(Key(), Coord())`, whose `g` and `rhs` are +∞). -/
def goalG (ss : StateSpace) : Option Key → D
  | none => D.inf
  | some k => (ss.getS k).g

/-- rhs-value of the tracked goal node. -/
def goalRhs (ss : StateSpace) : Option Key → D
  | none => D.inf
  | some k => (ss.getS k).rhs

/-- `calculateKey` of the tracked goal node (+∞ for the sentinel, whose
`min(g, rhs)` is +∞). -/
def goalCK (ss : StateSpace) : Option Key → D
  | none => D.inf
  | some k => calculateKey ss.eps (ss.getS k)

/-- Successor processing of one edge inside the LPA* loop: get-or-create
the child (no +∞-cost skip here, unlike A*), append the predecessor triple
only when `u`'s key is not yet among the child's predecessors, then
`updateNode` the child. -/
def lpaProcSucc (env : Env) (start_key : Key) (ukey : Key) (ss : StateSpace)
    (e : Coord × Key × D × ℕ) : StateSpace :=
  let c := e.1
  let k := e.2.1
  let cost := e.2.2.1
  let act := e.2.2.2
  let v := getOrCreate env ss k c
  let dup := v.pred.any (fun pe => decide (pe.1 = ukey))
  let v := if dup then v else { v with pred := v.pred ++ [(ukey, cost, act)] }
  updateNode (ss.put v) start_key k

/-- The LPA* consistency update on the popped node: an overconsistent node
(`g > rhs`) gets `g ← rhs`; otherwise `g ← +∞` followed by
`updateNode` on itself. -/
def lpaConsist (start_key ukey : Key) (ss : StateSpace) : StateSpace :=
  let u := ss.getS ukey
  if D.ltb u.rhs u.g then ss.put { u with g := u.rhs }
  else updateNode (ss.put { u with g := D.inf }) start_key ukey

/-- One full LPA* expansion given the popped key `ukey`: close it, apply
the over/under-consistency update, discover-or-reuse the cached successor
edges, process every successor, and update the candidate goal node via the
source's `is_goal(u) || max_t > 0` disjunction. -/
def lpaIterCore (env : Env) (start_key : Key) (max_t : ℚ) (ukey : Key)
    (rest : PQ) (ss : StateSpace) (gk : Option Key) :
    StateSpace × Option Key :=
  let ss := lpaConsist start_key ukey (popClose ukey rest ss)
  let u := ss.getS ukey
  let explored := u.succ.isEmpty
  let succs := if explored then env.get_succ u.coord else u.succ
  let ss := if explored then ss.put { u with succ := succs } else ss
  let ss := succs.foldl (lpaProcSucc env start_key ukey) ss
  let gk := if env.is_goal u.coord || decide (0 < max_t) then some ukey
    else gk
  (ss, gk)

/-- The LPA* exit path (loop condition false): trace back from the goal
node (a fresh sentinel has no predecessors, so it yields the empty
trajectory), record `expand_iteration_`, and return the goal's g-value. -/
def lpaFinish (env : Env) (start_key : Key) (tb_fuel : ℕ) (count : ℕ)
    (ss : StateSpace) (gk : Option Key) : LpaRes :=
  let r := match gk with
    | some k => recoverTraj env start_key ss k tb_fuel
    | none => ([], { ss with best_child := [] })
  let ss := { r.2 with expand_iteration := count }
  { ret := goalG ss gk, traj := some r.1, expansions := count,
    outcome := .loopExit, ss := ss, goal := gk }

/-- The LPA* main loop.  The loop condition reads `pq_.top()` without an
emptiness guard: evaluating it on an empty queue is undefined behaviour in
the C++ and is surfaced here as the `.topOnEmpty` outcome. -/
def lpaGo (env : Env) (start_key : Key) (max_expand : Int) (max_t : ℚ)
    (tb_fuel : ℕ) : ℕ → ℕ → StateSpace → Option Key → LpaRes
  | 0, count, ss, gk =>
    { ret := D.inf, traj := none, expansions := count, outcome := .fuelOut,
      ss := ss, goal := gk }
  | fuel + 1, count, ss, gk =>
    match ss.pq with
    | [] =>
      { ret := D.inf, traj := none, expansions := count,
        outcome := .topOnEmpty, ss := ss, goal := gk }
    | (fv, ukey) :: rest =>
      if D.ltb fv (goalCK ss gk) || !decide (goalRhs ss gk = goalG ss gk)
      then
        let count := count + 1
        let r := lpaIterCore env start_key max_t ukey rest ss gk
        let ss := r.1
        let gk := r.2
        if decide (0 < max_expand) && decide (max_expand ≤ (count : Int))
        then
          { ret := D.inf, traj := none, expansions := count,
            outcome := .capFail, ss := ss, goal := gk }
        else if ss.pq.isEmpty then
          { ret := D.inf, traj := none, expansions := count,
            outcome := .queueEmptyFail, ss := ss, goal := gk }
        else lpaGo env start_key max_expand max_t tb_fuel fuel count ss gk
      else lpaFinish env start_key tb_fuel count ss gk

/-- Start-node initialization of `LPAstar`: create-and-push the start node
(`g = +∞` default, `rhs = 0`, priority `calculateKey`) only when its key is
absent from the hash map. -/
def lpaStartNode (env : Env) (start_coord : Coord) (start_key : Key)
    (ss : StateSpace) : StateSpace :=
  match ss.hm start_key with
  | some _ => ss
  | none =>
    let s := { newState env ss.eps start_key start_coord with
               rhs := D.fin 0, iterationopened := true }
    { ss.put s with pq := pqPush (calculateKey ss.eps s, start_key) ss.pq }

/-- `LPAstar` initialization: store the max-time horizon in the state
space (`+∞` when the cap is disabled), then initialize the start node. -/
def lpaInit (env : Env) (start_coord : Coord) (start_key : Key)
    (ss : StateSpace) (max_t : ℚ) : StateSpace :=
  lpaStartNode env start_coord start_key
    { ss with max_t := if 0 < max_t then D.fin max_t else D.inf }

/-- Goal-node seeding of `LPAstar`: reuse the tail of a previous run's
`best_child_` when it exists and satisfies `is_goal`; otherwise the fresh
sentinel (`none`). -/
def lpaGoalInit (env : Env) (ss : StateSpace) : Option Key :=
  match ss.best_child.getLast? with
  | some k => if env.is_goal (ss.getS k).coord then some k else none
  | none => none

/-- `GraphSearch::LPAstar`: early-out when the start satisfies `is_goal`
(returning the decimal 0, a success g-value); store the max-time horizon in
the state space; create-and-push the start node only when absent from the
hash map; seed the goal node from a previous run's `best_child_` tail when
it ends in a goal; then run the main loop. -/
def LPAstar (env : Env) (start_coord : Coord) (start_key : Key)
    (ss : StateSpace) (max_expand : Int) (max_t : ℚ) (fuel tb_fuel : ℕ) :
    LpaRes :=
  if env.is_goal start_coord then
    { ret := D.fin 0, traj := none, expansions := 0,
      outcome := .alreadyAtGoal, ss := ss, goal := none }
  else
    let ss := lpaInit env start_coord start_key ss max_t
    lpaGo env start_key max_expand max_t tb_fuel fuel 0 ss
      (lpaGoalInit env ss)

/-! ## Derived notions used by the statements -/

/-- Predecessor list recorded for a key (empty for absent nodes, matching
the empty vectors of a fresh `State`). -/
def predOf (ss : StateSpace) (k : Key) : List (Key × D × ℕ) :=
  (ss.getS k).pred

/-- `p.g + cost(p → current)` for one predecessor entry. -/
def predVal (ss : StateSpace) (pe : Key × D × ℕ) : D :=
  D.add (ss.gOf pe.1) pe.2.1

/-- Well-formedness of the node table (spec invariant 4,
`NodeTable[k].key == k`): in C++ the queue and the map share the `State`
objects, so writing through a node pointer updates the entry of its own
key; the embedding needs the keys to agree for `put` to model that. -/
def SSWf (ss : StateSpace) : Prop :=
  ∀ k, (ss.getS k).hashkey = k

/-- All stored (and defaulted) nodes carry a zero heuristic. -/
def hAllZero (ss : StateSpace) : Prop :=
  ∀ k, (ss.getS k).h = 0

/-- Invariant of the predecessor-selection scan: `P` is the already
processed prefix of the enumerated predecessor list, `acc` the C++
`(min_id, min_rhs, min_g)` accumulator. -/
def SelInv (ss : StateSpace) (P : List (ℕ × Key × D × ℕ))
    (acc : Option ℕ × D × D) : Prop :=
  (acc.1 = none → acc.2.1 = D.inf ∧ acc.2.2 = D.inf ∧
    ∀ e ∈ P, predVal ss e.2 = D.inf) ∧
  (∀ i, acc.1 = some i → ∃ e ∈ P, e.1 = i ∧ acc.2.1 = predVal ss e.2 ∧
    acc.2.1 ≠ D.inf ∧ acc.2.2 = ss.gOf e.2.1 ∧
    (∀ f ∈ P, D.leb acc.2.1 (predVal ss f.2) = true) ∧
    (∀ f ∈ P, predVal ss f.2 = acc.2.1 →
      D.leb (ss.gOf f.2.1) acc.2.2 = true))

/-! ## Concrete fixtures for witnesses and counterexamples -/

/-- A fresh state space with unit inflation. -/
def ssInit : StateSpace := { hm := fun _ => none, pq := [], eps := 1, dt := 1 }

/-- A fresh state space with the `eps == 0` no-heuristic sentinel. -/
def ssInit0 : StateSpace := { ssInit with eps := 0 }

/-- An environment whose every coordinate is a goal. -/
def goalEnv : Env where
  is_goal _ := true
  get_heur _ := 0
  get_succ _ := []
  forward_action c a := { start := c, action_id := a }

/-- An environment with no goal and no successors anywhere. -/
def deadEnv : Env where
  is_goal _ := false
  get_heur _ := 0
  get_succ _ := []
  forward_action c a := { start := c, action_id := a }

/-- An unbounded unit-cost chain with an unreachable goal. -/
def chainEnv : Env where
  is_goal _ := false
  get_heur _ := 0
  get_succ c := [({ id := c.id + 1, t := c.t + 1 }, c.id + 1, D.fin 1, 0)]
  forward_action c a := { start := c, action_id := a }

/-- One successor edge, dynamically feasible but obstacle-blocked
(`cost = +∞`). -/
def infEnv : Env where
  is_goal _ := false
  get_heur _ := 0
  get_succ c :=
    if c.id = 1 then [({ id := 2, t := 1 }, 2, D.inf, 12)] else []
  forward_action c a := { start := c, action_id := a }

/-- A nonzero heuristic over an otherwise dead map. -/
def heurEnv : Env where
  is_goal _ := false
  get_heur _ := 5
  get_succ _ := []
  forward_action c a := { start := c, action_id := a }

/-- Start coordinate used by the fixtures. -/
def c1 : Coord := { id := 1, t := 0 }

/-- A closed node with finite g sitting past a time horizon. -/
def nodeHorizon : State :=
  { hashkey := 1, coord := { id := 1, t := 5 }, g := D.fin 0 }

/-- A state space whose queue holds exactly `nodeHorizon`. -/
def ssHorizon : StateSpace :=
  { hm := fun k => if k = 1 then some nodeHorizon else none,
    pq := [(D.fin 0, 1)], eps := 1, dt := 1 }

/-- A node with two recorded predecessor edges whose `p.g + cost` tie. -/
def nodeTraceCur : State :=
  { hashkey := 1, coord := { id := 1, t := 2 }, g := D.fin 4,
    pred := [(2, D.fin 1, 21), (3, D.fin 4, 31)] }

/-- First predecessor: the later-reached one (`g = 3`). -/
def nodeTraceP2 : State :=
  { hashkey := 2, coord := { id := 2, t := 1 }, g := D.fin 3 }

/-- Second predecessor: the earlier-reached one (`g = 0`). -/
def nodeTraceP3 : State :=
  { hashkey := 3, coord := { id := 3, t := 1 }, g := D.fin 0 }

/-- A state space exercising the trace-back tie-break. -/
def ssTrace : StateSpace :=
  { hm := fun k =>
      if k = 1 then some nodeTraceCur
      else if k = 2 then some nodeTraceP2
      else if k = 3 then some nodeTraceP3
      else none,
    pq := [], eps := 1, dt := 1 }

/-! ## Order toolkit for `D` -/

theorem D.ltb_irrefl (a : D) : D.ltb a a = false := by
  cases a <;> simp [D.ltb]

theorem D.ltb_ne_inf {a b : D} (h : D.ltb a b = true) : a ≠ D.inf := by
  cases a <;> cases b <;> simp_all [D.ltb]

theorem D.leb_of_not_ltb {a b : D} (h : D.ltb a b = false) :
    D.leb b a = true := by
  cases a <;> cases b <;> simp_all [D.ltb, D.leb]

theorem D.leb_of_ltb {a b : D} (h : D.ltb a b = true) : D.leb a b = true := by
  cases a <;> cases b <;> simp_all [D.ltb, D.leb]
  linarith

theorem D.ltb_leb_trans {a b c : D} (h₁ : D.ltb a b = true)
    (h₂ : D.leb b c = true) : D.leb a c = true := by
  cases a <;> cases b <;> cases c <;> simp_all [D.ltb, D.leb]
  linarith

theorem D.leb_inf (a : D) : D.leb a D.inf = true := by
  cases a <;> simp [D.leb]

theorem D.eq_inf_of_not_ltb_inf {a : D} (h : D.ltb a D.inf = false) :
    a = D.inf := by
  cases a <;> simp_all [D.ltb]

/-! ## Basic facts about the state-space embedding -/

theorem StateSpace.getS_put_self (ss : StateSpace) (s : State) :
    (ss.put s).getS s.hashkey = s := by
  simp [StateSpace.put, StateSpace.getS]

theorem StateSpace.getS_put_ne (ss : StateSpace) (s : State) {k : Key}
    (h : k ≠ s.hashkey) : (ss.put s).getS k = ss.getS k := by
  simp [StateSpace.put, StateSpace.getS, h]

theorem StateSpace.gOf_eq_getS (ss : StateSpace) (k : Key) :
    ss.gOf k = (ss.getS k).g := by
  cases h : ss.hm k <;> simp [StateSpace.gOf, StateSpace.getS, h]

theorem SSWf.put {ss : StateSpace} (h : SSWf ss) (s : State) :
    SSWf (ss.put s) := by
  intro k
  by_cases hk : k = s.hashkey
  · subst hk; rw [StateSpace.getS_put_self]
  · rw [StateSpace.getS_put_ne ss s hk]; exact h k

theorem SSWf_ssInit : SSWf ssInit := fun _ => rfl

/-! ## C1 -/

/-- C1: when the start coordinate satisfies `is_goal`, `Astar` executes
`return 0;`: the returned bool is `false` (a failure indicator, not the
success the spec prescribes), the output trajectory is never assigned, the
state space is untouched and zero expansions are performed. -/
theorem astar_start_goal_returns_false (env : Env) (sc : Coord) (sk : Key)
    (ss : StateSpace) (me : Int) (mt : ℚ) (fuel tb : ℕ)
    (h : env.is_goal sc = true) :
    Astar env sc sk ss me mt fuel tb =
      { ok := false, traj := none, expansions := 0,
        outcome := .alreadyAtGoal, ss := ss } := by
  simp [Astar, h]

/-- Witness for C1 at a concrete goal-at-start instance. -/
theorem astar_start_goal_returns_false_witness :
    goalEnv.is_goal c1 = true ∧
    Astar goalEnv c1 1 ssInit (-1) 0 5 5 =
      { ok := false, traj := none, expansions := 0,
        outcome := .alreadyAtGoal, ss := ssInit } :=
  ⟨rfl, astar_start_goal_returns_false goalEnv c1 1 ssInit (-1) 0 5 5 rfl⟩

theorem getS_put_key (ss : StateSpace) (s : State) (k : Key)
    (h : s.hashkey = k) : (ss.put s).getS k = s := by
  subst h; exact StateSpace.getS_put_self ss s

theorem updateNode_getS (ss : StateSpace) (sk k k' : Key) :
    (updateNode ss sk k).getS k' =
      (ss.put (updateNodeState ss sk k)).getS k' := rfl

theorem updateNodeState_hashkey (ss : StateSpace) (sk k : Key) :
    (updateNodeState ss sk k).hashkey = (ss.getS k).hashkey := rfl

theorem updateNodeState_coord (ss : StateSpace) (sk k : Key) :
    (updateNodeState ss sk k).coord = (ss.getS k).coord := rfl

theorem updateNodeState_g (ss : StateSpace) (sk k : Key) :
    (updateNodeState ss sk k).g = (ss.getS k).g := rfl

theorem updateNodeState_pred (ss : StateSpace) (sk k : Key) :
    (updateNodeState ss sk k).pred = (ss.getS k).pred := rfl

theorem updateNodeState_h (ss : StateSpace) (sk k : Key) :
    (updateNodeState ss sk k).h = (ss.getS k).h := rfl

theorem updateNode_getS_self (ss : StateSpace) (sk k : Key)
    (h : (ss.getS k).hashkey = k) :
    (updateNode ss sk k).getS k = updateNodeState ss sk k := by
  rw [updateNode_getS]
  exact getS_put_key _ _ _ (by rw [updateNodeState_hashkey]; exact h)

theorem updateNode_getS_ne (ss : StateSpace) (sk : Key) {k k' : Key}
    (h : (ss.getS k).hashkey = k) (hne : k' ≠ k) :
    (updateNode ss sk k).getS k' = ss.getS k' := by
  rw [updateNode_getS]
  exact StateSpace.getS_put_ne _ _
    (by rw [updateNodeState_hashkey, h]; exact hne)

theorem updateNode_eps (ss : StateSpace) (sk k : Key) :
    (updateNode ss sk k).eps = ss.eps := rfl

theorem popClose_getS (ukey : Key) (rest : PQ) (ss : StateSpace) (k : Key) :
    (popClose ukey rest ss).getS k =
      (ss.put { ss.getS ukey with iterationclosed := true }).getS k := rfl

theorem popClose_getS_self (ukey : Key) (rest : PQ) (ss : StateSpace)
    (h : (ss.getS ukey).hashkey = ukey) :
    (popClose ukey rest ss).getS ukey =
      { ss.getS ukey with iterationclosed := true } := by
  rw [popClose_getS]
  exact getS_put_key _ _ _ (by exact h)

theorem popClose_getS_ne (ukey : Key) (rest : PQ) (ss : StateSpace)
    {k : Key} (h : (ss.getS ukey).hashkey = ukey) (hne : k ≠ ukey) :
    (popClose ukey rest ss).getS k = ss.getS k := by
  rw [popClose_getS]
  exact StateSpace.getS_put_ne _ _
    (by rw [show ({ ss.getS ukey with iterationclosed := true } : State).hashkey
          = ukey from h]; exact hne)

theorem lpaConsist_getS_coord (sk ukey : Key) (ss : StateSpace)
    (h : (ss.getS ukey).hashkey = ukey) :
    ((lpaConsist sk ukey ss).getS ukey).coord = (ss.getS ukey).coord := by
  simp only [lpaConsist]
  split
  · rw [getS_put_key _ _ _ (by exact h)]
  · rw [updateNode_getS_self _ _ _
          (by rw [getS_put_key _ _ _ (by exact h)]; exact h),
        updateNodeState_coord, getS_put_key _ _ _ (by exact h)]

theorem getS_with_pq (ss : StateSpace) (p : PQ) (k : Key) :
    ({ ss with pq := p } : StateSpace).getS k = ss.getS k := rfl

theorem getOrCreate_pred (env : Env) (ss : StateSpace) (k : Key) (c : Coord) :
    (getOrCreate env ss k c).pred = (ss.getS k).pred := by
  cases hk : ss.hm k <;> simp [getOrCreate, StateSpace.getS, hk, newState]

theorem getOrCreate_g (env : Env) (ss : StateSpace) (k : Key) (c : Coord) :
    (getOrCreate env ss k c).g = (ss.getS k).g := by
  cases hk : ss.hm k <;> simp [getOrCreate, StateSpace.getS, hk, newState]

theorem getOrCreate_hashkey (env : Env) (ss : StateSpace) (k : Key)
    (c : Coord) (h : (ss.getS k).hashkey = k) :
    (getOrCreate env ss k c).hashkey = k := by
  cases hk : ss.hm k
  · simp [getOrCreate, hk, newState]
  · rw [show getOrCreate env ss k c = (ss.getS k) by
      simp [getOrCreate, StateSpace.getS, hk]]
    exact h

theorem astarProcSucc_pred (env : Env) (ukey : Key) (ss : StateSpace)
    (e : Coord × Key × D × ℕ) (h : (ss.getS e.2.1).hashkey = e.2.1)
    (hinf : D.isInf e.2.2.1 = false) :
    predOf (astarProcSucc env ukey ss e) e.2.1 =
      predOf ss e.2.1 ++ [(ukey, e.2.2.1, e.2.2.2)] := by
  have hk : (getOrCreate env ss e.2.1 e.1).hashkey = e.2.1 :=
    getOrCreate_hashkey _ _ _ _ h
  simp only [astarProcSucc, hinf, Bool.false_eq_true, if_false]
  unfold predOf
  split
  · split
    · rw [getS_with_pq, getS_put_key _ _ _ (by exact hk)]
      simp [getOrCreate_pred, predOf]
    · rw [getS_with_pq, getS_put_key _ _ _ (by exact hk)]
      simp [getOrCreate_pred, predOf]
  · rw [getS_put_key _ _ _ (by exact hk)]
    simp [getOrCreate_pred, predOf]

theorem lpaProcSucc_pred (env : Env) (sk ukey : Key) (ss : StateSpace)
    (e : Coord × Key × D × ℕ) (h : (ss.getS e.2.1).hashkey = e.2.1) :
    predOf (lpaProcSucc env sk ukey ss e) e.2.1 =
      if (predOf ss e.2.1).any (fun pe => decide (pe.1 = ukey))
      then predOf ss e.2.1
      else predOf ss e.2.1 ++ [(ukey, e.2.2.1, e.2.2.2)] := by
  have hk : (getOrCreate env ss e.2.1 e.1).hashkey = e.2.1 :=
    getOrCreate_hashkey _ _ _ _ h
  have hvv : ∀ vv : State, vv.hashkey = e.2.1 →
      predOf (updateNode (ss.put vv) sk e.2.1) e.2.1 = vv.pred := by
    intro vv hv
    unfold predOf
    rw [updateNode_getS_self _ _ _ (by rw [getS_put_key _ _ _ hv]; exact hv),
      updateNodeState_pred, getS_put_key _ _ _ hv]
  simp only [lpaProcSucc]
  rw [hvv _ (by split <;> exact hk)]
  split
  next hdup =>
    have hc : (predOf ss e.2.1).any (fun pe => decide (pe.1 = ukey)) = true :=
      by rw [predOf, ← getOrCreate_pred env ss e.2.1 e.1]; exact hdup
    simp only [predOf] at hc
    simp [hc, predOf, getOrCreate_pred]
  next hdup =>
    have hc : (predOf ss e.2.1).any (fun pe => decide (pe.1 = ukey)) =
        false := by
      rw [predOf, ← getOrCreate_pred env ss e.2.1 e.1]
      exact Bool.eq_false_iff.mpr hdup
    simp only [predOf] at hc
    simp [hc, predOf, getOrCreate_pred]

theorem put_hm_self_isSome (ss : StateSpace) (s : State) (k : Key)
    (h : s.hashkey = k) : ((ss.put s).hm k).isSome = true := by
  subst h; simp [StateSpace.put]

theorem put_hm_mono (ss : StateSpace) (s : State) (k : Key)
    (h : (ss.hm k).isSome = true) : ((ss.put s).hm k).isSome = true := by
  by_cases hc : k = s.hashkey <;> simp [StateSpace.put, hc, h]

theorem lpaProcSucc_hm_isSome (env : Env) (sk ukey : Key) (ss : StateSpace)
    (e : Coord × Key × D × ℕ) (h : (ss.getS e.2.1).hashkey = e.2.1) :
    ((lpaProcSucc env sk ukey ss e).hm e.2.1).isSome = true := by
  have hk : (getOrCreate env ss e.2.1 e.1).hashkey = e.2.1 :=
    getOrCreate_hashkey _ _ _ _ h
  simp only [lpaProcSucc]
  refine put_hm_mono _ _ _ (put_hm_self_isSome _ _ _ ?_)
  split <;> exact hk

/-! ## C3 -/

/-- C3: in the LPA* expansion, the candidate goal node after the iteration
is the popped node whenever `is_goal(u.coord)` *or* `max_t > 0` holds (the
source's disjunction), and is otherwise unchanged; in particular, with a
positive time horizon every popped node becomes the candidate goal. -/
theorem lpa_goal_candidate_disjunct (env : Env) (sk : Key) (mt : ℚ)
    (ukey : Key) (rest : PQ) (ss : StateSpace) (gk : Option Key)
    (hwf : SSWf ss) :
    (lpaIterCore env sk mt ukey rest ss gk).2 =
      (if env.is_goal (ss.getS ukey).coord || decide (0 < mt) then some ukey
       else gk) ∧
    (0 < mt → (lpaIterCore env sk mt ukey rest ss gk).2 = some ukey) := by
  have h₀ : (ss.getS ukey).hashkey = ukey := hwf ukey
  have hpc : (popClose ukey rest ss).getS ukey =
      { ss.getS ukey with iterationclosed := true } :=
    popClose_getS_self _ _ _ h₀
  have hc : ((lpaConsist sk ukey (popClose ukey rest ss)).getS ukey).coord =
      (ss.getS ukey).coord := by
    rw [lpaConsist_getS_coord _ _ _ (by rw [hpc]; exact h₀), hpc]
  have key : (lpaIterCore env sk mt ukey rest ss gk).2 =
      if env.is_goal (ss.getS ukey).coord || decide (0 < mt) then some ukey
      else gk := by
    simp only [lpaIterCore, hc]
  refine ⟨key, fun hmt => ?_⟩
  rw [key]
  simp [hmt]

/-- Witness for C3: in a concrete state space, with a positive time cap and
a non-goal popped node, the popped node becomes the candidate goal. -/
theorem lpa_goal_candidate_disjunct_witness :
    deadEnv.is_goal (ssHorizon.getS 1).coord = false ∧ (0 : ℚ) < 1 ∧
    (lpaIterCore deadEnv 7 1 1 [] ssHorizon none).2 = some 1 :=
  ⟨rfl, by norm_num,
    (lpa_goal_candidate_disjunct deadEnv 7 1 1 [] ssHorizon none
      (fun k => by by_cases h : k = 1 <;>
        simp [ssHorizon, StateSpace.getS, nodeHorizon, h])).2 (by norm_num)⟩

/-! ## C5 -/

/-- C5: predecessor-edge recording policy: A* appends the
`(u.key, cost, action_id)` triple unconditionally for every surviving
(finite-cost) successor — even when the successor's g-value is not
improved, so repeats accumulate across expansions — while LPA* appends
only when `u.key` is not yet among the successor's recorded predecessor
keys. -/
theorem pred_edge_recording (env : Env) (sk ukey : Key) (ss : StateSpace)
    (e : Coord × Key × D × ℕ) (hwf : SSWf ss) :
    (D.isInf e.2.2.1 = false →
      predOf (astarProcSucc env ukey ss e) e.2.1 =
        predOf ss e.2.1 ++ [(ukey, e.2.2.1, e.2.2.2)]) ∧
    ((predOf ss e.2.1).any (fun pe => decide (pe.1 = ukey)) = true →
      predOf (lpaProcSucc env sk ukey ss e) e.2.1 = predOf ss e.2.1) ∧
    ((predOf ss e.2.1).any (fun pe => decide (pe.1 = ukey)) = false →
      predOf (lpaProcSucc env sk ukey ss e) e.2.1 =
        predOf ss e.2.1 ++ [(ukey, e.2.2.1, e.2.2.2)]) := by
  refine ⟨fun hinf => astarProcSucc_pred env ukey ss e (hwf e.2.1) hinf,
    fun hdup => ?_, fun hdup => ?_⟩
  · rw [lpaProcSucc_pred env sk ukey ss e (hwf e.2.1), if_pos hdup]
  · rw [lpaProcSucc_pred env sk ukey ss e (hwf e.2.1),
      if_neg (by simp [hdup])]

/-- Witness for C5 on a fresh state space and a unit-cost edge. -/
theorem pred_edge_recording_witness :
    D.isInf (D.fin 1) = false ∧
    (predOf ssInit 2).any (fun pe => decide (pe.1 = 1)) = false ∧
    predOf (astarProcSucc deadEnv 1 ssInit
        ({ id := 2, t := 1 }, 2, D.fin 1, 12)) 2 =
      predOf ssInit 2 ++ [(1, D.fin 1, 12)] ∧
    predOf (lpaProcSucc deadEnv 7 1 ssInit
        ({ id := 2, t := 1 }, 2, D.fin 1, 12)) 2 =
      predOf ssInit 2 ++ [(1, D.fin 1, 12)] :=
  ⟨rfl, rfl,
    (pred_edge_recording deadEnv 7 1 ssInit _ SSWf_ssInit).1 rfl,
    (pred_edge_recording deadEnv 7 1 ssInit _ SSWf_ssInit).2.2 rfl⟩

/-! ## C2 -/

/-- Counterexample to C2: in `LPAstar` a successor edge with `cost = +∞`
is *not* skipped — running LPA* on an environment whose only edge is
blocked creates the successor node and records the infinite-cost
predecessor edge on it. -/
theorem inf_edge_skip_counterexample :
    ((LPAstar infEnv c1 1 ssInit (-1) 0 9 9).ss.hm 2).map State.pred =
      some [(1, D.inf, 12)] := by
  rfl

/-- C2 as amended: A* skips `cost = +∞` successor edges entirely (the
state space is untouched), while LPA* processes them: the successor node
exists afterwards and the predecessor edge is recorded whenever `u`'s key
was not already present. -/
theorem inf_edge_skip_amended :
    (∀ (env : Env) (ukey : Key) (ss : StateSpace) (e : Coord × Key × D × ℕ),
      D.isInf e.2.2.1 = true → astarProcSucc env ukey ss e = ss) ∧
    (∀ (env : Env) (sk ukey : Key) (ss : StateSpace)
      (e : Coord × Key × D × ℕ), SSWf ss → D.isInf e.2.2.1 = true →
      ((lpaProcSucc env sk ukey ss e).hm e.2.1).isSome = true ∧
      ((predOf ss e.2.1).any (fun pe => decide (pe.1 = ukey)) = false →
        predOf (lpaProcSucc env sk ukey ss e) e.2.1 =
          predOf ss e.2.1 ++ [(ukey, e.2.2.1, e.2.2.2)])) := by
  constructor
  · intro env ukey ss e hinf
    simp [astarProcSucc, hinf]
  · intro env sk ukey ss e hwf _
    refine ⟨lpaProcSucc_hm_isSome env sk ukey ss e (hwf e.2.1),
      fun hdup => ?_⟩
    rw [lpaProcSucc_pred env sk ukey ss e (hwf e.2.1),
      if_neg (by simp [hdup])]

/-- Witness for the amended C2 at the blocked edge of `infEnv`. -/
theorem inf_edge_skip_amended_witness :
    astarProcSucc infEnv 1 ssInit ({ id := 2, t := 1 }, 2, D.inf, 12) =
      ssInit ∧
    ((lpaProcSucc infEnv 7 1 ssInit
        ({ id := 2, t := 1 }, 2, D.inf, 12)).hm 2).isSome = true :=
  ⟨inf_edge_skip_amended.1 infEnv 1 ssInit
      ({ id := 2, t := 1 }, 2, D.inf, 12) rfl,
   (inf_edge_skip_amended.2 infEnv 7 1 ssInit
      ({ id := 2, t := 1 }, 2, D.inf, 12) SSWf_ssInit rfl).1⟩

/-! ## C10 -/

theorem pqPush_ne_nil (x : D × Key) (pq : PQ) : pqPush x pq ≠ [] := by
  cases pq <;> simp [pqPush]
  split <;> simp

theorem lpaFinish_outcome (env : Env) (sk : Key) (tb count : ℕ)
    (ss : StateSpace) (gk : Option Key) :
    (lpaFinish env sk tb count ss gk).outcome = .loopExit := by
  cases gk <;> rfl

theorem lpaGo_no_topOnEmpty (env : Env) (sk : Key) (me : Int) (mt : ℚ)
    (tb : ℕ) :
    ∀ (fuel count : ℕ) (ss : StateSpace) (gk : Option Key), ss.pq ≠ [] →
    (lpaGo env sk me mt tb fuel count ss gk).outcome ≠ .topOnEmpty := by
  intro fuel
  induction fuel with
  | zero => intro count ss gk hne; simp [lpaGo]
  | succ n ih =>
    intro count ss gk hne
    simp only [lpaGo]
    split
    next hpq => exact absurd hpq hne
    next fv ukey rest hpq =>
      split
      · split
        · simp
        · split
          · simp
          next hq =>
            apply ih
            intro hnil
            simp [hnil] at hq
      · rw [lpaFinish_outcome]
        simp

theorem lpaStartNode_pq_ne (env : Env) (sc : Coord) (sk : Key)
    (ss : StateSpace) (h : ss.hm sk = none ∨ ss.pq ≠ []) :
    (lpaStartNode env sc sk ss).pq ≠ [] := by
  unfold lpaStartNode
  cases hc : ss.hm sk with
  | none => exact pqPush_ne_nil _ _
  | some s =>
    rcases h with h | h
    · rw [hc] at h; exact absurd h (by simp)
    · exact h

/-- C10 as amended: within one `LPAstar` call, the unguarded `top()`/
`pop()` calls never execute on an empty queue provided the queue is
non-empty when the main loop is first entered — which holds whenever the
start key is not yet in the hash map (the start node is then pushed) or
the queue is passed in non-empty.  (The counterexample shows the remaining
warm-start case does hit `top()` on an empty queue.) -/
theorem lpa_top_guarded (env : Env) (sc : Coord) (sk : Key)
    (ss : StateSpace) (me : Int) (mt : ℚ) (fuel tb : ℕ)
    (h : ss.hm sk = none ∨ ss.pq ≠ []) :
    (LPAstar env sc sk ss me mt fuel tb).outcome ≠ .topOnEmpty := by
  unfold LPAstar
  split
  · simp
  · exact lpaGo_no_topOnEmpty env sk me mt tb fuel 0 _ _
      (lpaStartNode_pq_ne env sc sk _ h)

/-- Witness for the amended C10: a cold start never hits the unguarded
`top()` on an empty queue. -/
theorem lpa_top_guarded_witness :
    (ssInit.hm 1 = none ∨ ssInit.pq ≠ []) ∧
    (LPAstar deadEnv c1 1 ssInit (-1) 0 9 9).outcome ≠ .topOnEmpty :=
  ⟨Or.inl rfl, lpa_top_guarded deadEnv c1 1 ssInit (-1) 0 9 9 (Or.inl rfl)⟩

/-- Counterexample to C10 as stated: after a first `LPAstar` call that
exhausts the queue (environment with no successors), a second call on the
warm state space evaluates the loop condition's `pq_.top()` with the queue
empty — the undefined-behaviour marker of the embedding. -/
theorem lpa_warm_empty_top_counterexample :
    (LPAstar deadEnv c1 1 (LPAstar deadEnv c1 1 ssInit (-1) 0 9 9).ss
      (-1) 0 9 9).outcome = .topOnEmpty := by
  rfl

/-! ## C6 -/

theorem astarFinish_outcome (env : Env) (sk : Key) (tb count : ℕ)
    (ss : StateSpace) (k : Key) (kind : OutKind) :
    (astarFinish env sk tb count ss k kind).outcome = kind := rfl

theorem astarGo_capFail (env : Env) (sk : Key) (me : Int) (mt : ℚ) (tb : ℕ) :
    ∀ (fuel count : ℕ) (ss : StateSpace),
    (astarGo env sk me mt tb fuel count ss).outcome = .capFail →
    (astarGo env sk me mt tb fuel count ss).ok = false ∧ 0 < me ∧
    ((count : Int) < me →
      ((astarGo env sk me mt tb fuel count ss).expansions : Int) = me) := by
  intro fuel
  induction fuel with
  | zero => intro count ss h; simp [astarGo] at h
  | succ n ih =>
    intro count ss h
    rcases hpq : ss.pq with _ | ⟨⟨fv, ukey⟩, rest⟩
    · simp only [astarGo, hpq] at h
      exact absurd h (by simp)
    · simp only [astarGo, hpq] at h ⊢
      by_cases hg : env.is_goal (ss.getS ukey).coord = true
      · rw [if_pos hg, astarFinish_outcome] at h
        exact absurd h (by simp)
      · rw [if_neg hg] at h ⊢
        by_cases ht : (decide (0 < mt) && decide (mt ≤ (ss.getS ukey).coord.t)
            && !(D.isInf ((astarExpand env ukey rest ss).getS ukey).g)) = true
        · rw [if_pos ht, astarFinish_outcome] at h
          exact absurd h (by simp)
        · rw [if_neg ht] at h ⊢
          by_cases hc : (decide (0 < me) &&
              decide (me ≤ ((count + 1 : ℕ) : Int))) = true
          · rw [if_pos hc] at h ⊢
            rw [Bool.and_eq_true, decide_eq_true_eq, decide_eq_true_eq] at hc
            refine ⟨rfl, hc.1, fun hlt => ?_⟩
            show ((count + 1 : ℕ) : Int) = me
            omega
          · rw [if_neg hc] at h ⊢
            by_cases he : (astarExpand env ukey rest ss).pq.isEmpty = true
            · rw [if_pos he] at h
              exact absurd h (by simp)
            · rw [if_neg he] at h ⊢
              rcases ih (count + 1) (astarExpand env ukey rest ss) h with
                ⟨hok, hme, hexp⟩
              refine ⟨hok, hme, fun _ => ?_⟩
              apply hexp
              rw [Bool.and_eq_true] at hc
              simp only [decide_eq_true_eq] at hc
              omega

theorem lpaGo_capFail (env : Env) (sk : Key) (me : Int) (mt : ℚ) (tb : ℕ) :
    ∀ (fuel count : ℕ) (ss : StateSpace) (gk : Option Key),
    (lpaGo env sk me mt tb fuel count ss gk).outcome = .capFail →
    (lpaGo env sk me mt tb fuel count ss gk).ret = D.inf ∧ 0 < me ∧
    ((count : Int) < me →
      ((lpaGo env sk me mt tb fuel count ss gk).expansions : Int) = me) := by
  intro fuel
  induction fuel with
  | zero => intro count ss gk h; simp [lpaGo] at h
  | succ n ih =>
    intro count ss gk h
    rcases hpq : ss.pq with _ | ⟨⟨fv, ukey⟩, rest⟩
    · simp only [lpaGo, hpq] at h
      exact absurd h (by simp)
    · simp only [lpaGo, hpq] at h ⊢
      by_cases hl : (D.ltb fv (goalCK ss gk) ||
          !decide (goalRhs ss gk = goalG ss gk)) = true
      · rw [if_pos hl] at h ⊢
        by_cases hc : (decide (0 < me) &&
            decide (me ≤ ((count + 1 : ℕ) : Int))) = true
        · rw [if_pos hc] at h ⊢
          rw [Bool.and_eq_true, decide_eq_true_eq, decide_eq_true_eq] at hc
          refine ⟨rfl, hc.1, fun hlt => ?_⟩
          show ((count + 1 : ℕ) : Int) = me
          omega
        · rw [if_neg hc] at h ⊢
          by_cases he :
              (lpaIterCore env sk mt ukey rest ss gk).1.pq.isEmpty = true
          · rw [if_pos he] at h
            exact absurd h (by simp)
          · rw [if_neg he] at h ⊢
            rcases ih (count + 1) (lpaIterCore env sk mt ukey rest ss gk).1
                (lpaIterCore env sk mt ukey rest ss gk).2 h with
              ⟨hok, hme, hexp⟩
            refine ⟨hok, hme, fun _ => ?_⟩
            apply hexp
            rw [Bool.and_eq_true] at hc
            simp only [decide_eq_true_eq] at hc
            omega
      · rw [if_neg hl, lpaFinish_outcome] at h
        exact absurd h (by simp)

/-- C6: when the expansion cap fires, both searches report failure (A*
returns `false`, LPA* returns +∞) after exactly `max_expand` expansions;
the cap can only fire with `max_expand > 0`, so `max_expand ≤ 0` disables
it entirely. -/
theorem expansion_cap (env : Env) (sc : Coord) (sk : Key) (ss : StateSpace)
    (me : Int) (mt : ℚ) (fuel tb : ℕ) :
    ((Astar env sc sk ss me mt fuel tb).outcome = .capFail →
      (Astar env sc sk ss me mt fuel tb).ok = false ∧ 0 < me ∧
      ((Astar env sc sk ss me mt fuel tb).expansions : Int) = me) ∧
    (me ≤ 0 → (Astar env sc sk ss me mt fuel tb).outcome ≠ .capFail) ∧
    ((LPAstar env sc sk ss me mt fuel tb).outcome = .capFail →
      (LPAstar env sc sk ss me mt fuel tb).ret = D.inf ∧ 0 < me ∧
      ((LPAstar env sc sk ss me mt fuel tb).expansions : Int) = me) ∧
    (me ≤ 0 → (LPAstar env sc sk ss me mt fuel tb).outcome ≠ .capFail) := by
  have hA : (Astar env sc sk ss me mt fuel tb).outcome = .capFail →
      (Astar env sc sk ss me mt fuel tb).ok = false ∧ 0 < me ∧
      ((Astar env sc sk ss me mt fuel tb).expansions : Int) = me := by
    unfold Astar
    split
    · intro h; exact absurd h (by simp)
    · intro h
      rcases astarGo_capFail env sk me mt tb fuel 0 _ h with ⟨hok, hme, hexp⟩
      exact ⟨hok, hme, hexp (by exact_mod_cast hme)⟩
  have hL : (LPAstar env sc sk ss me mt fuel tb).outcome = .capFail →
      (LPAstar env sc sk ss me mt fuel tb).ret = D.inf ∧ 0 < me ∧
      ((LPAstar env sc sk ss me mt fuel tb).expansions : Int) = me := by
    unfold LPAstar
    split
    · intro h; exact absurd h (by simp)
    · intro h
      rcases lpaGo_capFail env sk me mt tb fuel 0 _ _ h with ⟨hok, hme, hexp⟩
      exact ⟨hok, hme, hexp (by exact_mod_cast hme)⟩
  exact ⟨hA, fun hle h => absurd (hA h).2.1 (by omega),
    hL, fun hle h => absurd (hL h).2.1 (by omega)⟩

/-- Witness for C6: on the unbounded chain with `max_expand = 5`, both A*
and LPA* fail after exactly 5 expansions; with `max_expand = -1` the cap
branch never fires. -/
theorem expansion_cap_witness :
    (Astar chainEnv c1 1 ssInit 5 0 20 20).outcome = .capFail ∧
    (Astar chainEnv c1 1 ssInit 5 0 20 20).ok = false ∧ (0 : Int) < 5 ∧
    ((Astar chainEnv c1 1 ssInit 5 0 20 20).expansions : Int) = 5 ∧
    (LPAstar chainEnv c1 1 ssInit 5 0 20 20).ret = D.inf ∧
    ((LPAstar chainEnv c1 1 ssInit 5 0 20 20).expansions : Int) = 5 ∧
    (Astar chainEnv c1 1 ssInit (-1) 0 6 6).outcome ≠ .capFail := by
  have hA : (Astar chainEnv c1 1 ssInit 5 0 20 20).outcome = .capFail := by
    rfl
  have hL : (LPAstar chainEnv c1 1 ssInit 5 0 20 20).outcome = .capFail := by
    rfl
  rcases (expansion_cap chainEnv c1 1 ssInit 5 0 20 20).1 hA with
    ⟨hok, hme, hexp⟩
  rcases (expansion_cap chainEnv c1 1 ssInit 5 0 20 20).2.2.1 hL with
    ⟨hok2, _, hexp2⟩
  exact ⟨hA, hok, hme, hexp, hok2, hexp2,
    (expansion_cap chainEnv c1 1 ssInit (-1) 0 6 6).2.1 (by norm_num)⟩

/-! ## C7 -/

/-- C7: ordering and effect of the A* termination checks.  If the popped
node satisfies `is_goal`, the iteration finishes with the goal outcome (the
goal check wins).  Otherwise, if `max_t > 0`, `u.coord.t ≥ max_t` and `u.g`
is finite after successor processing, the iteration finishes successfully
with `u` as the terminal node — with no condition on the expansion cap or
on queue emptiness, since the time check precedes both.  `astarFinish`
returns `true` and the trajectory traced back from the terminal node. -/
theorem astar_time_horizon (env : Env) (sk : Key) (me : Int) (mt : ℚ)
    (tb fuel count : ℕ) (ss : StateSpace) (fv : D) (ukey : Key) (rest : PQ)
    (hpq : ss.pq = (fv, ukey) :: rest) :
    (env.is_goal (ss.getS ukey).coord = true →
      astarGo env sk me mt tb (fuel + 1) count ss =
        astarFinish env sk tb (count + 1) (astarExpand env ukey rest ss)
          ukey (.goalReached ukey)) ∧
    (env.is_goal (ss.getS ukey).coord = false →
      0 < mt → mt ≤ (ss.getS ukey).coord.t →
      D.isInf ((astarExpand env ukey rest ss).getS ukey).g = false →
      astarGo env sk me mt tb (fuel + 1) count ss =
        astarFinish env sk tb (count + 1) (astarExpand env ukey rest ss)
          ukey (.horizonReached ukey)) ∧
    (∀ (c : ℕ) (ss' : StateSpace) (k : Key) (kind : OutKind),
      (astarFinish env sk tb c ss' k kind).ok = true ∧
      (astarFinish env sk tb c ss' k kind).expansions = c ∧
      (astarFinish env sk tb c ss' k kind).outcome = kind ∧
      (astarFinish env sk tb c ss' k kind).traj =
        some (recoverTraj env sk { ss' with expand_iteration := c } k
          tb).1) := by
  refine ⟨fun hg => ?_, fun hg hmt hle hinf => ?_,
    fun c ss' k kind => ⟨rfl, rfl, rfl, rfl⟩⟩
  · simp only [astarGo, hpq]
    rw [if_pos hg]
  · simp only [astarGo, hpq]
    rw [if_neg (by simp [hg]),
      if_pos (show (decide (0 < mt) && decide (mt ≤ (ss.getS ukey).coord.t)
        && !(D.isInf ((astarExpand env ukey rest ss).getS ukey).g)) = true
        by rw [hinf]; simp [hmt, hle])]

/-- Witness for C7 on a concrete one-node state space past the horizon. -/
theorem astar_time_horizon_witness :
    ssHorizon.pq = (D.fin 0, 1) :: [] ∧
    deadEnv.is_goal (ssHorizon.getS 1).coord = false ∧ (0 : ℚ) < 1 ∧
    (1 : ℚ) ≤ (ssHorizon.getS 1).coord.t ∧
    D.isInf ((astarExpand deadEnv 1 [] ssHorizon).getS 1).g = false ∧
    astarGo deadEnv 7 (-1) 1 3 1 0 ssHorizon =
      astarFinish deadEnv 7 3 1 (astarExpand deadEnv 1 [] ssHorizon) 1
        (.horizonReached 1) :=
  ⟨rfl, rfl, by norm_num, by decide, rfl,
    (astar_time_horizon deadEnv 7 (-1) 1 3 0 0 ssHorizon (D.fin 0) 1 []
      rfl).2.1 rfl (by norm_num) (by decide) rfl⟩

/-! ## C8 -/

theorem hz_put {ss : StateSpace} {s : State} (h0 : hAllZero ss)
    (hs : s.h = 0) : hAllZero (ss.put s) := by
  intro k
  by_cases hk : k = s.hashkey
  · subst hk; rw [StateSpace.getS_put_self]; exact hs
  · rw [StateSpace.getS_put_ne ss s hk]; exact h0 k

theorem getOrCreate_h_zero (env : Env) (ss : StateSpace) (k : Key)
    (c : Coord) (he : ss.eps = 0) (h0 : hAllZero ss) :
    (getOrCreate env ss k c).h = 0 := by
  have hh := h0 k
  cases hk : ss.hm k with
  | some v =>
    rw [show getOrCreate env ss k c = ss.getS k by
      simp [getOrCreate, StateSpace.getS, hk]]
    exact hh
  | none => simp [getOrCreate, hk, newState, he]

theorem foldl_preserve {α : Type} (P : StateSpace → Prop)
    (f : StateSpace → α → StateSpace)
    (hf : ∀ ss e, P ss → P (f ss e)) :
    ∀ (l : List α) (ss : StateSpace), P ss → P (l.foldl f ss) := by
  intro l
  induction l with
  | nil => intro ss h; exact h
  | cons e t iht => intro ss h; exact iht _ (hf ss e h)

theorem astarProcSucc_inv (env : Env) (ukey : Key) (ss : StateSpace)
    (e : Coord × Key × D × ℕ) (h : ss.eps = 0 ∧ hAllZero ss) :
    (astarProcSucc env ukey ss e).eps = 0 ∧
      hAllZero (astarProcSucc env ukey ss e) := by
  obtain ⟨he, h0⟩ := h
  have hv : (getOrCreate env ss e.2.1 e.1).h = 0 :=
    getOrCreate_h_zero env ss e.2.1 e.1 he h0
  simp only [astarProcSucc]
  split
  · exact ⟨he, h0⟩
  · split
    · split
      · exact ⟨he, hz_put (hz_put h0 (by exact hv)) (by exact hv)⟩
      · exact ⟨he, hz_put (hz_put h0 (by exact hv)) (by exact hv)⟩
    · exact ⟨he, hz_put h0 (by exact hv)⟩

theorem updateNode_hz {ss : StateSpace} {sk k : Key} (h0 : hAllZero ss) :
    hAllZero (updateNode ss sk k) := by
  intro k'
  rw [show (updateNode ss sk k).getS k' =
    (ss.put (updateNodeState ss sk k)).getS k' from rfl]
  exact hz_put h0 (by rw [updateNodeState_h]; exact h0 k) k'

theorem lpaProcSucc_inv (env : Env) (sk ukey : Key) (ss : StateSpace)
    (e : Coord × Key × D × ℕ) (h : ss.eps = 0 ∧ hAllZero ss) :
    (lpaProcSucc env sk ukey ss e).eps = 0 ∧
      hAllZero (lpaProcSucc env sk ukey ss e) := by
  obtain ⟨he, h0⟩ := h
  have hv : (getOrCreate env ss e.2.1 e.1).h = 0 :=
    getOrCreate_h_zero env ss e.2.1 e.1 he h0
  simp only [lpaProcSucc]
  refine ⟨by rw [updateNode_eps]; exact he, updateNode_hz ?_⟩
  exact hz_put h0 (by split <;> exact hv)

theorem popClose_inv (ukey : Key) (rest : PQ) (ss : StateSpace)
    (h : ss.eps = 0 ∧ hAllZero ss) :
    (popClose ukey rest ss).eps = 0 ∧ hAllZero (popClose ukey rest ss) :=
  ⟨h.1, fun k => hz_put h.2 (by exact h.2 ukey) k⟩

theorem astarExpand_inv (env : Env) (ukey : Key) (rest : PQ)
    (ss : StateSpace) (h : ss.eps = 0 ∧ hAllZero ss) :
    (astarExpand env ukey rest ss).eps = 0 ∧
      hAllZero (astarExpand env ukey rest ss) := by
  unfold astarExpand
  exact foldl_preserve _ _ (fun ss' e h' => astarProcSucc_inv env ukey ss' e
    h') _ _ (popClose_inv ukey rest ss h)

theorem lpaConsist_inv (sk ukey : Key) (ss : StateSpace)
    (h : ss.eps = 0 ∧ hAllZero ss) :
    (lpaConsist sk ukey ss).eps = 0 ∧ hAllZero (lpaConsist sk ukey ss) := by
  obtain ⟨he, h0⟩ := h
  simp only [lpaConsist]
  split
  · exact ⟨he, hz_put h0 (by exact h0 ukey)⟩
  · exact ⟨by rw [updateNode_eps]; exact he,
      updateNode_hz (hz_put h0 (by exact h0 ukey))⟩

theorem lpaIterCore_inv (env : Env) (sk : Key) (mt : ℚ) (ukey : Key)
    (rest : PQ) (ss : StateSpace) (gk : Option Key)
    (h : ss.eps = 0 ∧ hAllZero ss) :
    (lpaIterCore env sk mt ukey rest ss gk).1.eps = 0 ∧
      hAllZero (lpaIterCore env sk mt ukey rest ss gk).1 := by
  simp only [lpaIterCore]
  have h1 := lpaConsist_inv sk ukey _ (popClose_inv ukey rest ss h)
  refine foldl_preserve
    (fun x => x.eps = 0 ∧ hAllZero x)
    (lpaProcSucc env sk ukey)
    (fun ss' e h' => lpaProcSucc_inv env sk ukey ss' e h') _ _ ?_
  split
  · exact ⟨h1.1, hz_put h1.2 (by exact h1.2 ukey)⟩
  · exact h1

theorem astarFinish_ss_hz (env : Env) (sk : Key) (tb c : ℕ)
    (ss : StateSpace) (k : Key) (kind : OutKind) (h0 : hAllZero ss) :
    hAllZero (astarFinish env sk tb c ss k kind).ss := fun k' => h0 k'

theorem lpaFinish_ss_hz (env : Env) (sk : Key) (tb c : ℕ)
    (ss : StateSpace) (gk : Option Key) (h0 : hAllZero ss) :
    hAllZero (lpaFinish env sk tb c ss gk).ss := by
  cases gk with
  | none => exact fun k' => h0 k'
  | some k => exact fun k' => h0 k'

theorem astarGo_inv (env : Env) (sk : Key) (me : Int) (mt : ℚ) (tb : ℕ) :
    ∀ (fuel count : ℕ) (ss : StateSpace), ss.eps = 0 → hAllZero ss →
    hAllZero (astarGo env sk me mt tb fuel count ss).ss := by
  intro fuel
  induction fuel with
  | zero => intro count ss _ h0; exact h0
  | succ n ih =>
    intro count ss he h0
    rcases hpq : ss.pq with _ | ⟨⟨fv, ukey⟩, rest⟩
    · simp only [astarGo, hpq]; exact h0
    · simp only [astarGo, hpq]
      have hx := astarExpand_inv env ukey rest ss ⟨he, h0⟩
      split
      · exact astarFinish_ss_hz _ _ _ _ _ _ _ hx.2
      · split
        · exact astarFinish_ss_hz _ _ _ _ _ _ _ hx.2
        · split
          · exact hx.2
          · split
            · exact hx.2
            · exact ih _ _ hx.1 hx.2

theorem lpaGo_inv (env : Env) (sk : Key) (me : Int) (mt : ℚ) (tb : ℕ) :
    ∀ (fuel count : ℕ) (ss : StateSpace) (gk : Option Key), ss.eps = 0 →
    hAllZero ss → hAllZero (lpaGo env sk me mt tb fuel count ss gk).ss := by
  intro fuel
  induction fuel with
  | zero => intro count ss gk _ h0; exact h0
  | succ n ih =>
    intro count ss gk he h0
    rcases hpq : ss.pq with _ | ⟨⟨fv, ukey⟩, rest⟩
    · simp only [lpaGo, hpq]; exact h0
    · simp only [lpaGo, hpq]
      have hx := lpaIterCore_inv env sk mt ukey rest ss gk ⟨he, h0⟩
      split
      · split
        · exact hx.2
        · split
          · exact hx.2
          · exact ih _ _ _ hx.1 hx.2
      · exact lpaFinish_ss_hz _ _ _ _ _ _ h0

theorem D.add_fin_zero (x : D) : D.add x (D.fin 0) = x := by
  cases x <;> simp [D.add]

/-- C8: with the `eps == 0` sentinel the heuristic is disabled: every node
created during an `Astar` or `LPAstar` call stores `h = 0` (so, given a
state space whose nodes all carry `h = 0`, the property persists through a
whole call of either engine); with any `eps ≠ 0` — in particular
`eps == 1` — node creation stores `get_heur(coord)` instead; and with
`eps = 0` the queue priority collapses to the pure g/rhs value. -/
theorem eps_zero_disables_heuristic (env : Env) (sc : Coord) (sk : Key)
    (ss : StateSpace) (me : Int) (mt : ℚ) (fuel tb : ℕ)
    (he : ss.eps = 0) (h0 : hAllZero ss) :
    hAllZero (Astar env sc sk ss me mt fuel tb).ss ∧
    hAllZero (LPAstar env sc sk ss me mt fuel tb).ss ∧
    (∀ (k : Key) (c : Coord), (newState env 0 k c).h = 0) ∧
    (∀ (k : Key) (c : Coord) (e : ℚ), e ≠ 0 →
      (newState env e k c).h = env.get_heur c) ∧
    (∀ s : State, calculateKey 0 s = D.dmin s.g s.rhs) := by
  refine ⟨?_, ?_, fun k c => rfl, fun k c e hne => by simp [newState, hne],
    fun s => by rw [calculateKey, zero_mul, D.add_fin_zero]⟩
  · unfold Astar
    split
    · exact h0
    · split
      next hemp =>
        refine astarGo_inv env sk me mt tb fuel 0 _ he ?_
        exact hz_put h0 (by simp [newState, he])
      next hemp => exact astarGo_inv env sk me mt tb fuel 0 _ he h0
  · unfold LPAstar
    split
    · exact h0
    · have hin : (lpaInit env sc sk ss mt).eps = 0 ∧
          hAllZero (lpaInit env sc sk ss mt) := by
        unfold lpaInit lpaStartNode
        cases hk : ({ ss with
            max_t := if 0 < mt then D.fin mt else D.inf } :
            StateSpace).hm sk with
        | some s => exact ⟨he, fun k => h0 k⟩
        | none =>
          refine ⟨he, ?_⟩
          exact hz_put (fun k => h0 k) (by simp [newState, he])
      exact lpaGo_inv env sk me mt tb fuel 0 _ _ hin.1 hin.2

/-- Witness for C8: running A* with `eps = 0` over a nonzero heuristic
leaves every node with `h = 0`. -/
theorem eps_zero_disables_heuristic_witness :
    ssInit0.eps = 0 ∧ hAllZero ssInit0 ∧
    hAllZero (Astar heurEnv c1 1 ssInit0 (-1) 0 9 9).ss :=
  ⟨rfl, fun _ => rfl,
    (eps_zero_disables_heuristic heurEnv c1 1 ssInit0 (-1) 0 9 9 rfl
      (fun _ => rfl)).1⟩

/-! ## C9 -/

theorem popClose_wf {ukey : Key} {rest : PQ} {ss : StateSpace}
    (hwf : SSWf ss) : SSWf (popClose ukey rest ss) :=
  fun k => (hwf.put { ss.getS ukey with iterationclosed := true }) k

theorem astarProcSucc_wf {env : Env} {ukey : Key} {ss : StateSpace}
    {e : Coord × Key × D × ℕ} (hwf : SSWf ss) :
    SSWf (astarProcSucc env ukey ss e) := by
  simp only [astarProcSucc]
  split
  · exact hwf
  · split
    · split
      · exact fun k => ((hwf.put _).put _) k
      · exact fun k => ((hwf.put _).put _) k
    · exact fun k => (hwf.put _) k

theorem updateNode_wf {ss : StateSpace} {sk k : Key} (hwf : SSWf ss) :
    SSWf (updateNode ss sk k) :=
  fun k' => (hwf.put (updateNodeState ss sk k)) k'

theorem lpaProcSucc_wf {env : Env} {sk ukey : Key} {ss : StateSpace}
    {e : Coord × Key × D × ℕ} (hwf : SSWf ss) :
    SSWf (lpaProcSucc env sk ukey ss e) := by
  simp only [lpaProcSucc]
  exact updateNode_wf (fun k' => (hwf.put _) k')

theorem astarExpand_wf {env : Env} {ukey : Key} {rest : PQ}
    {ss : StateSpace} (hwf : SSWf ss) : SSWf (astarExpand env ukey rest ss)
    := by
  unfold astarExpand
  exact foldl_preserve SSWf _ (fun ss' e h' => astarProcSucc_wf h') _ _
    (popClose_wf hwf)

theorem popClose_gOf (ukey : Key) (rest : PQ) (ss : StateSpace)
    (hwf : SSWf ss) (k : Key) :
    (popClose ukey rest ss).gOf k = ss.gOf k := by
  rw [StateSpace.gOf_eq_getS, StateSpace.gOf_eq_getS, popClose_getS]
  by_cases hk : k = ukey
  · subst hk
    rw [getS_put_key _ _ _ (by exact hwf k)]
  · rw [StateSpace.getS_put_ne _ _
      (by rw [show ({ ss.getS ukey with iterationclosed := true } :
        State).hashkey = ukey from hwf ukey]; exact hk)]

theorem gOf_put_self (ss : StateSpace) (s : State) (k : Key)
    (h : s.hashkey = k) : (ss.put s).gOf k = s.g := by
  rw [StateSpace.gOf_eq_getS, getS_put_key _ _ _ h]

theorem gOf_put_ne (ss : StateSpace) (s : State) (k : Key)
    (h : k ≠ s.hashkey) : (ss.put s).gOf k = ss.gOf k := by
  rw [StateSpace.gOf_eq_getS, StateSpace.gOf_eq_getS,
    StateSpace.getS_put_ne ss s h]

theorem gOf_pq_put2_self (ss : StateSpace) (s₁ s₂ : State) (p : PQ)
    (k : Key) (h2 : s₂.hashkey = k) :
    ({ (ss.put s₁).put s₂ with pq := p } : StateSpace).gOf k = s₂.g := by
  rw [show ({ (ss.put s₁).put s₂ with pq := p } : StateSpace).gOf k =
      ((ss.put s₁).put s₂).gOf k from rfl, gOf_put_self _ _ _ h2]

theorem gOf_pq_put2_ne (ss : StateSpace) (s₁ s₂ : State) (p : PQ) (k : Key)
    (h1 : k ≠ s₁.hashkey) (h2 : k ≠ s₂.hashkey) :
    ({ (ss.put s₁).put s₂ with pq := p } : StateSpace).gOf k = ss.gOf k :=
  by
  rw [show ({ (ss.put s₁).put s₂ with pq := p } : StateSpace).gOf k =
      ((ss.put s₁).put s₂).gOf k from rfl, gOf_put_ne _ _ _ h2,
    gOf_put_ne _ _ _ h1]

theorem astarProcSucc_g_dichotomy (env : Env) (ukey : Key)
    (ss : StateSpace) (e : Coord × Key × D × ℕ) (hwf : SSWf ss) (k : Key) :
    (astarProcSucc env ukey ss e).gOf k = ss.gOf k ∨
      D.ltb ((astarProcSucc env ukey ss e).gOf k) (ss.gOf k) = true := by
  by_cases hinf : D.isInf e.2.2.1 = true
  · left; simp [astarProcSucc, hinf]
  · have hk : (getOrCreate env ss e.2.1 e.1).hashkey = e.2.1 :=
      getOrCreate_hashkey _ _ _ _ (hwf e.2.1)
    have hvg : (getOrCreate env ss e.2.1 e.1).g = (ss.getS e.2.1).g :=
      getOrCreate_g env ss e.2.1 e.1
    simp only [astarProcSucc]
    rw [if_neg hinf]
    by_cases hkk : k = e.2.1
    · subst hkk
      split
      next hlt =>
        split
        · right
          rw [gOf_pq_put2_self _ _ _ _ _ (by exact hk),
            StateSpace.gOf_eq_getS, ← hvg]
          exact hlt
        · right
          rw [gOf_pq_put2_self _ _ _ _ _ (by exact hk),
            StateSpace.gOf_eq_getS, ← hvg]
          exact hlt
      next hlt =>
        left
        rw [gOf_put_self _ _ _ (by exact hk), StateSpace.gOf_eq_getS,
          ← hvg]
    · left
      split
      · split
        · exact gOf_pq_put2_ne _ _ _ _ _ (fun hh => hkk (hh.trans hk))
            (fun hh => hkk (hh.trans hk))
        · exact gOf_pq_put2_ne _ _ _ _ _ (fun hh => hkk (hh.trans hk))
            (fun hh => hkk (hh.trans hk))
      · exact gOf_put_ne _ _ _ (fun hh => hkk (hh.trans hk))

theorem astarProcSucc_g_leb (env : Env) (ukey : Key) (ss : StateSpace)
    (e : Coord × Key × D × ℕ) (hwf : SSWf ss) (k : Key) :
    D.leb ((astarProcSucc env ukey ss e).gOf k) (ss.gOf k) = true := by
  rcases astarProcSucc_g_dichotomy env ukey ss e hwf k with h | h
  · rw [h]; exact D.leb_refl _
  · exact D.leb_of_ltb h

theorem astarFold_g_leb (env : Env) (ukey : Key) :
    ∀ (l : List (Coord × Key × D × ℕ)) (ss : StateSpace), SSWf ss → ∀ k,
    D.leb ((l.foldl (astarProcSucc env ukey) ss).gOf k) (ss.gOf k) = true
    := by
  intro l
  induction l with
  | nil => intro ss _ k; exact D.leb_refl _
  | cons e t ih =>
    intro ss hwf k
    exact D.leb_trans (ih _ (astarProcSucc_wf hwf) k)
      (astarProcSucc_g_leb env ukey ss e hwf k)

theorem astarExpand_g_leb (env : Env) (ukey : Key) (rest : PQ)
    (ss : StateSpace) (hwf : SSWf ss) (k : Key) :
    D.leb ((astarExpand env ukey rest ss).gOf k) (ss.gOf k) = true := by
  unfold astarExpand
  have hh := astarFold_g_leb env ukey (env.get_succ (ss.getS ukey).coord)
    (popClose ukey rest ss) (popClose_wf hwf) k
  rw [popClose_gOf ukey rest ss hwf k] at hh
  exact hh

theorem astarFinish_gOf (env : Env) (sk : Key) (tb c : ℕ)
    (ss : StateSpace) (k : Key) (kind : OutKind) (k' : Key) :
    (astarFinish env sk tb c ss k kind).ss.gOf k' = ss.gOf k' := rfl

theorem astarGo_g_monotone (env : Env) (sk : Key) (me : Int) (mt : ℚ)
    (tb : ℕ) :
    ∀ (fuel count : ℕ) (ss : StateSpace), SSWf ss → ∀ k,
    D.leb ((astarGo env sk me mt tb fuel count ss).ss.gOf k) (ss.gOf k)
      = true := by
  intro fuel
  induction fuel with
  | zero => intro count ss _ k; exact D.leb_refl _
  | succ n ih =>
    intro count ss hwf k
    rcases hpq : ss.pq with _ | ⟨⟨fv, ukey⟩, rest⟩
    · simp only [astarGo, hpq]; exact D.leb_refl _
    · simp only [astarGo, hpq]
      split
      · rw [astarFinish_gOf]
        exact astarExpand_g_leb env ukey rest ss hwf k
      · split
        · rw [astarFinish_gOf]
          exact astarExpand_g_leb env ukey rest ss hwf k
        · split
          · exact astarExpand_g_leb env ukey rest ss hwf k
          · split
            · exact astarExpand_g_leb env ukey rest ss hwf k
            · exact D.leb_trans (ih (count + 1) _ (astarExpand_wf hwf) k)
                (astarExpand_g_leb env ukey rest ss hwf k)

/-- C9: during an `Astar` call the g-value of every node is monotone
non-increasing: each successor-processing step either leaves a node's
g-value unchanged (in particular node creation installs the `+∞` default)
or strictly decreases it (the `tentative < g` update), and consequently
the whole main loop never increases any node's g-value. -/
theorem astar_g_monotone (env : Env) (sk : Key) (me : Int) (mt : ℚ)
    (tb : ℕ) (ss : StateSpace) (hwf : SSWf ss) :
    (∀ (ukey : Key) (e : Coord × Key × D × ℕ) (k : Key),
      (astarProcSucc env ukey ss e).gOf k = ss.gOf k ∨
        D.ltb ((astarProcSucc env ukey ss e).gOf k) (ss.gOf k) = true) ∧
    (∀ (fuel count : ℕ) (k : Key),
      D.leb ((astarGo env sk me mt tb fuel count ss).ss.gOf k) (ss.gOf k)
        = true) :=
  ⟨fun ukey e k => astarProcSucc_g_dichotomy env ukey ss e hwf k,
   fun fuel count k =>
     astarGo_g_monotone env sk me mt tb fuel count ss hwf k⟩

/-- Witness for C9 on the concrete chain environment. -/
theorem astar_g_monotone_witness :
    SSWf ssInit ∧
    D.leb ((astarGo chainEnv 1 (-1) 0 3 3 0 ssInit).ss.gOf 2)
      (ssInit.gOf 2) = true :=
  ⟨SSWf_ssInit,
    (astar_g_monotone chainEnv 1 (-1) 0 3 ssInit SSWf_ssInit).2 3 0 2⟩


/-! ## C4 -/

theorem D.inf_ltb (x : D) : D.ltb D.inf x = false := by
  cases x <;> rfl

theorem D.add_inf (x : D) : D.add x D.inf = D.inf := by
  cases x <;> rfl

theorem D.eq_inf_of_isInf {x : D} (h : D.isInf x = true) : x = D.inf := by
  cases x <;> simp_all [D.isInf]

theorem D.ltb_leb_trans_ltb {a b c : D} (h₁ : D.ltb a b = true)
    (h₂ : D.leb b c = true) : D.ltb a c = true := by
  cases a <;> cases b <;> cases c <;> simp_all [D.ltb, D.leb]
  linarith

theorem selectStep_inv (ss : StateSpace) (P : List (ℕ × Key × D × ℕ))
    (acc : Option ℕ × D × D) (e : ℕ × Key × D × ℕ)
    (hinv : SelInv ss P acc) : SelInv ss (P ++ [e]) (selectStep ss acc e)
    := by
  obtain ⟨hN, hS⟩ := hinv
  have hmem : ∀ f, f ∈ P ++ [e] → f ∈ P ∨ f = e := by
    intro f hf
    rcases List.mem_append.mp hf with hf | hf
    · exact Or.inl hf
    · exact Or.inr (List.mem_singleton.mp hf)
  have he_mem : e ∈ P ++ [e] := List.mem_append.mpr (Or.inr (by simp))
  have hP_mem : ∀ f, f ∈ P → f ∈ P ++ [e] :=
    fun f hf => List.mem_append.mpr (Or.inl hf)
  simp only [selectStep]
  split
  next hlt =>
    -- strict improvement: new accumulator (some e.1, val e, g e)
    refine ⟨fun hc => ?_, fun i hi => ?_⟩
    · exact absurd (show some e.1 = none from hc) (by simp)
    · have hi' : some e.1 = some i := hi
      rw [Option.some.injEq] at hi'
      refine ⟨e, he_mem, hi', rfl, D.ltb_ne_inf hlt, rfl, ?_, ?_⟩
      · intro f hf
        rcases hmem f hf with hf | hf
        · rcases hacc : acc.1 with _ | j
          · rcases hN hacc with ⟨h1, _, h3⟩
            show D.leb (D.add (ss.gOf e.2.1) e.2.2.1) (predVal ss f.2)
              = true
            rw [h3 f hf]
            exact D.leb_inf _
          · rcases hS j hacc with ⟨ej, _, _, _, _, _, hmin, _⟩
            exact D.ltb_leb_trans hlt (hmin f hf)
        · subst hf; exact D.leb_refl _
      · intro f hf hval
        rcases hmem f hf with hf | hf
        · exfalso
          have hval' : predVal ss f.2 = D.add (ss.gOf e.2.1) e.2.2.1 :=
            hval
          rcases hacc : acc.1 with _ | j
          · rcases hN hacc with ⟨h1, _, h3⟩
            exact D.ltb_ne_inf hlt (hval'.symm.trans (h3 f hf))
          · rcases hS j hacc with ⟨ej, _, _, _, _, _, hmin, _⟩
            have h4 := hmin f hf
            rw [hval'] at h4
            have h5 := D.ltb_leb_trans_ltb hlt h4
            rw [D.ltb_irrefl] at h5
            exact Bool.false_ne_true h5
        · subst hf; exact D.leb_refl _
  next hlt =>
    split
    next htie =>
      rw [Bool.and_eq_true, Bool.not_eq_true', decide_eq_true_eq] at htie
      obtain ⟨hcfin, hmv⟩ := htie
      split
      next hg =>
        -- finite-cost tie with strictly larger g: replace the id
        rcases hacc : acc.1 with _ | j
        · rcases hN hacc with ⟨_, h2, _⟩
          rw [h2, D.inf_ltb] at hg
          exact absurd hg Bool.false_ne_true
        · rcases hS j hacc with ⟨ej, hejP, hejI, hv1, hvne, hv2, hmin,
            htn⟩
          refine ⟨fun hc => ?_, fun i hi => ?_⟩
          · exact absurd (show some e.1 = none from hc) (by simp)
          · have hi' : some e.1 = some i := hi
            rw [Option.some.injEq] at hi'
            refine ⟨e, he_mem, hi', by rw [hmv]; rfl, hvne, rfl, ?_, ?_⟩
            · intro f hf
              rcases hmem f hf with hf | hf
              · exact hmin f hf
              · subst hf
                show D.leb acc.2.1 (predVal ss f.2) = true
                rw [hmv]
                exact D.leb_refl _
            · intro f hf hval
              rcases hmem f hf with hf | hf
              · exact D.leb_trans (htn f hf hval) (D.leb_of_ltb hg)
              · subst hf; exact D.leb_refl _
      next hg =>
        -- finite-cost tie, not strictly larger g: keep the accumulator
        have hg' : D.ltb acc.2.2 (ss.gOf e.2.1) = false :=
          Bool.eq_false_iff.mpr hg
        rcases hacc : acc.1 with _ | j
        · rcases hN hacc with ⟨h1, h2, h3⟩
          refine ⟨fun _ => ⟨h1, h2, fun f hf => ?_⟩, fun i hi => ?_⟩
          · rcases hmem f hf with hf | hf
            · exact h3 f hf
            · subst hf
              show D.add (ss.gOf f.2.1) f.2.2.1 = D.inf
              rw [← hmv, h1]
          · exact absurd (show (none : Option ℕ) = some i from hi)
              (by simp)
        · rcases hS j hacc with ⟨ej, hejP, hejI, hv1, hvne, hv2, hmin,
            htn⟩
          refine ⟨fun hc => ?_, fun i hi => ?_⟩
          · exact absurd (show some j = (none : Option ℕ) from hc)
              (by simp)
          · have hi' : some j = some i := hi
            rw [Option.some.injEq] at hi'
            refine ⟨ej, hP_mem ej hejP, hejI.trans hi', hv1, hvne, hv2,
              ?_, ?_⟩
            · intro f hf
              rcases hmem f hf with hf | hf
              · exact hmin f hf
              · subst hf
                show D.leb acc.2.1 (predVal ss f.2) = true
                rw [hmv]
                exact D.leb_refl _
            · intro f hf hval
              rcases hmem f hf with hf | hf
              · exact htn f hf hval
              · subst hf
                exact D.leb_of_not_ltb hg'
    next htie =>
      -- neither strict nor an admissible tie: keep the accumulator
      have hlt' : D.ltb (D.add (ss.gOf e.2.1) e.2.2.1) acc.2.1 = false :=
        Bool.eq_false_iff.mpr hlt
      have htie' : D.isInf e.2.2.1 = true ∨
          acc.2.1 ≠ D.add (ss.gOf e.2.1) e.2.2.1 := by
        by_cases hc1 : D.isInf e.2.2.1 = true
        · exact Or.inl hc1
        · refine Or.inr fun hcontra => htie ?_
          rw [Bool.not_eq_true] at hc1
          simp [hc1, hcontra]
      rcases hacc : acc.1 with _ | j
      · rcases hN hacc with ⟨h1, h2, h3⟩
        refine ⟨fun _ => ⟨h1, h2, fun f hf => ?_⟩, fun i hi => ?_⟩
        · rcases hmem f hf with hf | hf
          · exact h3 f hf
          · subst hf
            show D.add (ss.gOf f.2.1) f.2.2.1 = D.inf
            rw [h1] at hlt'
            exact D.eq_inf_of_not_ltb_inf hlt'
        · exact absurd (show (none : Option ℕ) = some i from hi)
            (by simp)
      · rcases hS j hacc with ⟨ej, hejP, hejI, hv1, hvne, hv2, hmin, htn⟩
        refine ⟨fun hc => ?_, fun i hi => ?_⟩
        · exact absurd (show some j = (none : Option ℕ) from hc)
            (by simp)
        · have hi' : some j = some i := hi
          rw [Option.some.injEq] at hi'
          refine ⟨ej, hP_mem ej hejP, hejI.trans hi', hv1, hvne, hv2,
            ?_, ?_⟩
          · intro f hf
            rcases hmem f hf with hf | hf
            · exact hmin f hf
            · subst hf
              exact D.leb_of_not_ltb hlt'
          · intro f hf hval
            rcases hmem f hf with hf | hf
            · exact htn f hf hval
            · subst hf
              exfalso
              have hval' : D.add (ss.gOf f.2.1) f.2.2.1 = acc.2.1 := hval
              rcases htie' with hh | hh
              · rw [D.eq_inf_of_isInf hh, D.add_inf] at hval'
                exact hvne hval'.symm
              · exact hh hval'.symm

theorem selectFold_inv (ss : StateSpace) :
    ∀ (l P : List (ℕ × Key × D × ℕ)) (acc : Option ℕ × D × D),
    SelInv ss P acc → SelInv ss (P ++ l) (l.foldl (selectStep ss) acc) := by
  intro l
  induction l with
  | nil => intro P acc h; simpa using h
  | cons e t ih =>
    intro P acc h
    have h2 := ih (P ++ [e]) (selectStep ss acc e)
      (selectStep_inv ss P acc e h)
    rw [List.append_assoc] at h2
    simpa using h2

theorem selInv_init (ss : StateSpace) :
    SelInv ss [] (none, D.inf, D.inf) := by
  constructor
  · intro _; exact ⟨rfl, rfl, fun e he => absurd he (List.not_mem_nil e)⟩
  · intro i hi
    exact absurd (show (none : Option ℕ) = some i from hi) (by simp)

theorem selectPred_inv (ss : StateSpace) (preds : List (Key × D × ℕ)) :
    SelInv ss preds.enum (selectPred ss preds) := by
  have h := selectFold_inv ss preds.enum [] (none, D.inf, D.inf)
    (selInv_init ss)
  simpa [selectPred] using h

/-- C4: the trace-back of `recoverTraj`.  (1) When the selection scan finds
no candidate, every predecessor has `p.g + cost = +∞`.  (2) A selected
predecessor minimizes `p.g + cost(p → current)` over the whole list, and
among finite-action-cost predecessors achieving that minimum its `p.g` is
maximal (the strictly-larger-g tie-break).  (3) With no candidate the walk
stops and returns exactly the primitives collected so far.  (4) When the
selected parent is the start key the walk stops after appending that one
primitive and parent.  (5) The returned trajectory is the reverse of the
goal-to-start collection, i.e. in start-to-goal order. -/
theorem traceback_selection (env : Env) (sk : Key) (ss : StateSpace)
    (preds : List (Key × D × ℕ)) (fuel : ℕ) (curk : Key) (prs : List Prim)
    (bc : List Key) :
    ((selectPred ss preds).1 = none →
      ∀ pe ∈ preds, predVal ss pe = D.inf) ∧
    (∀ i, (selectPred ss preds).1 = some i →
      ∃ pe, preds[i]? = some pe ∧
      (∀ qe ∈ preds, D.leb (predVal ss pe) (predVal ss qe) = true) ∧
      (∀ qe ∈ preds, D.isInf qe.2.1 = false →
        predVal ss qe = predVal ss pe →
        D.leb (ss.gOf qe.1) (ss.gOf pe.1) = true)) ∧
    ((selectPred ss (ss.getS curk).pred).1 = none →
      (recoverTrajGo env sk ss (fuel + 1) curk prs bc).1 = prs ∧
      (recoverTrajGo env sk ss (fuel + 1) curk prs bc).2.2 = true) ∧
    (∀ i pe, (selectPred ss (ss.getS curk).pred).1 = some i →
      (ss.getS curk).pred.getD i (0, D.inf, 0) = pe → pe.1 = sk →
      recoverTrajGo env sk ss (fuel + 1) curk prs bc =
        (prs ++ [env.forward_action (ss.getS pe.1).coord pe.2.2],
         bc ++ [curk] ++ [pe.1], true)) ∧
    (recoverTraj env sk ss curk fuel).1 =
      (recoverTrajGo env sk ss fuel curk [] []).1.reverse := by
  obtain ⟨hN, hS⟩ := selectPred_inv ss preds
  refine ⟨?_, ?_, ?_, ?_, rfl⟩
  · intro hnone pe hpe
    rcases List.mem_iff_getElem?.mp hpe with ⟨i, hi⟩
    exact (hN hnone).2.2 (i, pe) (List.mk_mem_enum_iff_getElem?.mpr hi)
  · intro i hsome
    rcases hS i hsome with ⟨e, heEnum, heI, hv1, hvne, hv2, hmin, htn⟩
    have hget : preds[i]? = some e.2 := by
      rw [← heI]
      exact List.mem_enum_iff_getElem?.mp heEnum
    refine ⟨e.2, hget, ?_, ?_⟩
    · intro qe hqe
      rcases List.mem_iff_getElem?.mp hqe with ⟨iq, hiq⟩
      have h3 := hmin (iq, qe) (List.mk_mem_enum_iff_getElem?.mpr hiq)
      rw [hv1] at h3
      exact h3
    · intro qe hqe _ hval
      rcases List.mem_iff_getElem?.mp hqe with ⟨iq, hiq⟩
      have h3 := htn (iq, qe) (List.mk_mem_enum_iff_getElem?.mpr hiq)
        (by rw [hval, hv1])
      rw [hv2] at h3
      exact h3
  · intro hnone
    simp only [recoverTrajGo]
    split
    · exact ⟨rfl, rfl⟩
    · rw [hnone]
      exact ⟨rfl, rfl⟩
  · intro i pe hsome hgetD hstart
    simp only [recoverTrajGo]
    split
    next hemp =>
      rw [List.isEmpty_iff.mp hemp] at hsome
      exact absurd (show (none : Option ℕ) = some i from hsome) (by simp)
    next hemp =>
      rw [hsome]
      have hgoal : (if ((ss.getS curk).pred.getD i (0, D.inf, 0)).1 = sk
          then (prs ++ [env.forward_action
              (ss.getS ((ss.getS curk).pred.getD i (0, D.inf, 0)).1).coord
              ((ss.getS curk).pred.getD i (0, D.inf, 0)).2.2],
            bc ++ [curk] ++ [((ss.getS curk).pred.getD i (0, D.inf, 0)).1],
            true)
          else recoverTrajGo env sk ss fuel
            ((ss.getS curk).pred.getD i (0, D.inf, 0)).1
            (prs ++ [env.forward_action
              (ss.getS ((ss.getS curk).pred.getD i (0, D.inf, 0)).1).coord
              ((ss.getS curk).pred.getD i (0, D.inf, 0)).2.2])
            (bc ++ [curk])) =
          (prs ++ [env.forward_action (ss.getS pe.1).coord pe.2.2],
           bc ++ [curk] ++ [pe.1], true) := by
        rw [hgetD, if_pos hstart]
      exact hgoal

/-- Witness for C4 on a concrete two-predecessor node: predecessor 2 (with
`g = 3`) and predecessor 3 (with `g = 0`) both reach the current node with
total value 4; the scan selects the larger-g predecessor 2, and since it is
the start key the walk stops with the single recovered primitive. -/
theorem traceback_selection_witness :
    (selectPred ssTrace (ssTrace.getS 1).pred).1 = some 0 ∧
    ((ssTrace.getS 1).pred.getD 0 (0, D.inf, 0)) = (2, D.fin 1, 21) ∧
    ((2, D.fin 1, 21) : Key × D × ℕ).1 = 2 ∧
    recoverTrajGo deadEnv 2 ssTrace 4 1 [] [] =
      ([deadEnv.forward_action (ssTrace.getS 2).coord 21],
       [] ++ [1] ++ [2], true) ∧
    (∀ qe ∈ (ssTrace.getS 1).pred,
      D.leb (predVal ssTrace (2, D.fin 1, 21)) (predVal ssTrace qe) =
        true) :=
  by
  have hsel : (selectPred ssTrace (ssTrace.getS 1).pred).1 = some 0 := by
    norm_num [selectPred, selectStep, predVal, ssTrace, StateSpace.getS,
      StateSpace.gOf, nodeTraceCur, nodeTraceP2, nodeTraceP3, D.ltb, D.leb,
      D.add, D.isInf, List.enum, List.enumFrom, D.dmin]
  have hget : ((ssTrace.getS 1).pred.getD 0 (0, D.inf, 0)) =
      (2, D.fin 1, 21) := by decide
  refine ⟨hsel, hget, rfl, ?_, ?_⟩
  · exact (traceback_selection deadEnv 2 ssTrace (ssTrace.getS 1).pred 3 1
      [] []).2.2.2.1 0 (2, D.fin 1, 21) hsel hget rfl
  · rcases (traceback_selection deadEnv 2 ssTrace (ssTrace.getS 1).pred 3 1
      [] []).2.1 0 hsel with ⟨pe, hpe, hmin, _⟩
    have hpe2 : pe = (2, D.fin 1, 21) := by
      have hsp : some pe = some (2, (D.fin 1 : D), 21) := by
        rw [← hpe]; rfl
      exact Option.some.inj hsp
    rw [← hpe2]
    exact hmin

end MPL
